import Mathlib

/-!
todo-go: a shallow embedding of `todo.go`

The program is a command-line todo list kept in one bolt bucket (`todos`).
Every command runs one transaction against that bucket.  The embedding has
three layers:

* machine integers and byte strings (`uint64`, `int`, `itob`);
* the two library collaborators the commands call: the bolt bucket (an
  ordered key/value map with a sequence counter) and `encoding/json`
  restricted to the `todo` struct;
* the five command bodies `get`, `add`, `remove`, `edit`, `list`, each a
  function from a bucket to a bucket and the sequence of print calls made.
-/

namespace TodoGo

/-! ## Bytes and machine integers -/

/-- A Go byte slice or string: a sequence of bytes, each a natural number
below 256. -/
abbrev Bytes := List Nat

/-- The `todo` struct: `ID int`, `Text string`. -/
structure todo where
  ID : Int
  Text : Bytes
deriving DecidableEq, Repr

/-- The Go conversion `uint64(v)` of an `int`: reduction modulo `2^64`. -/
def uint64 (v : Int) : Nat := (v % 18446744073709551616).toNat

/-- The Go conversion `int(u)` of a `uint64` on a 64-bit platform: the two's
complement reading of the low 64 bits. -/
def int (u : Nat) : Int :=
  if u % 18446744073709551616 < 9223372036854775808 then
    ((u % 18446744073709551616 : Nat) : Int)
  else
    ((u % 18446744073709551616 : Nat) : Int) - 18446744073709551616

/-- The values of the Go type `int` (64 bits). -/
def isInt (v : Int) : Prop := -9223372036854775808 ≤ v ∧ v < 9223372036854775808

instance (v : Int) : Decidable (isInt v) := by unfold isInt; infer_instance

/-- The call `binary.BigEndian.PutUint64(b, v)` on a fresh 8-byte slice:
`b[0] = byte(v >> 56)`, ..., `b[7] = byte(v)`. -/
def PutUint64 (v : Nat) : Bytes :=
  [v / 72057594037927936 % 256, v / 281474976710656 % 256, v / 1099511627776 % 256,
   v / 4294967296 % 256, v / 16777216 % 256, v / 65536 % 256, v / 256 % 256, v % 256]

/-- The function `itob`: the 8-byte big endian representation of `v`. -/
def itob (v : Int) : Bytes := PutUint64 (uint64 v)

/-- The order `bytes.Compare(a, b) < 0`: unsigned lexicographic comparison,
a proper prefix being smaller. -/
def bytesLt : Bytes → Bytes → Bool
  | _, [] => false
  | [], _ :: _ => true
  | a :: as, b :: bs => if a < b then true else if b < a then false else bytesLt as bs

/-! ## The bolt bucket -/

/-- The state of the `todos` bucket: its sequence counter (a `uint64`) and its
key/value pairs, which bolt keeps in ascending key order with no key twice. -/
structure Bucket where
  sequence : Nat
  entries : List (Bytes × Bytes)
deriving DecidableEq, Repr

/-- The bucket right after `CreateBucketIfNotExists` on a new database file. -/
def Bucket.empty : Bucket := { sequence := 0, entries := [] }

/-- Insertion into the sorted pair list: a pair with the same key is replaced. -/
def putEntries (k v : Bytes) : List (Bytes × Bytes) → List (Bytes × Bytes)
  | [] => [(k, v)]
  | (k', v') :: rest =>
    if bytesLt k k' then (k, v) :: (k', v') :: rest
    else if k = k' then (k, v) :: rest
    else (k', v') :: putEntries k v rest

/-- The lookup `b.Get(key)`: the value, or `none` for Go's `nil` when the key
is absent. -/
def Bucket.Get (b : Bucket) (key : Bytes) : Option Bytes :=
  (b.entries.find? (fun e => e.1 = key)).map (fun e => e.2)

/-- The write `b.Put(key, value)`.  Its error cases (empty or oversized key,
value above `MaxValueSize`, read-only transaction) do not arise for the
8-byte keys and argument-sized values the commands write, so the write is
total here. -/
def Bucket.Put (b : Bucket) (key value : Bytes) : Bucket :=
  { b with entries := putEntries key value b.entries }

/-- The removal `b.Delete(key)`; an absent key is not an error, and in a
writable transaction on a plain key there is no other error. -/
def Bucket.Delete (b : Bucket) (key : Bytes) : Bucket :=
  { b with entries := b.entries.filter (fun e => ¬ e.1 = key) }

/-- The call `b.NextSequence()`: increments the counter and returns it. -/
def Bucket.NextSequence (b : Bucket) : Nat × Bucket :=
  let n := (b.sequence + 1) % 18446744073709551616
  (n, { b with sequence := n })

/-! ## `unicode/utf8` -/

/-- The rune `utf8.RuneError`, U+FFFD. -/
def RuneError : Nat := 65533

/-- The function `utf8.DecodeRune`: the first rune of `p` and its width in
bytes; `(RuneError, 1)` when `p` does not start with a well-formed encoding
and `(RuneError, 0)` when `p` is empty. -/
def DecodeRune : Bytes → Nat × Nat
  | [] => (RuneError, 0)
  | b0 :: rest =>
    if b0 < 128 then (b0, 1)
    else if 194 ≤ b0 ∧ b0 ≤ 223 then
      match rest with
      | b1 :: _ =>
        if 128 ≤ b1 ∧ b1 ≤ 191 then (b0 % 32 * 64 + b1 % 64, 2) else (RuneError, 1)
      | _ => (RuneError, 1)
    else if 224 ≤ b0 ∧ b0 ≤ 239 then
      match rest with
      | b1 :: b2 :: _ =>
        if (if b0 = 224 then 160 else 128) ≤ b1 ∧ b1 ≤ (if b0 = 237 then 159 else 191)
            ∧ 128 ≤ b2 ∧ b2 ≤ 191 then
          (b0 % 16 * 4096 + b1 % 64 * 64 + b2 % 64, 3)
        else (RuneError, 1)
      | _ => (RuneError, 1)
    else if 240 ≤ b0 ∧ b0 ≤ 244 then
      match rest with
      | b1 :: b2 :: b3 :: _ =>
        if (if b0 = 240 then 144 else 128) ≤ b1 ∧ b1 ≤ (if b0 = 244 then 143 else 191)
            ∧ 128 ≤ b2 ∧ b2 ≤ 191 ∧ 128 ≤ b3 ∧ b3 ≤ 191 then
          (b0 % 8 * 262144 + b1 % 64 * 4096 + b2 % 64 * 64 + b3 % 64, 4)
        else (RuneError, 1)
      | _ => (RuneError, 1)
    else (RuneError, 1)

/-- The function `utf8.EncodeRune` (as `utf8.AppendRune` on an empty slice):
surrogates and values above U+10FFFF are written as U+FFFD. -/
def EncodeRune (r : Nat) : Bytes :=
  if r < 128 then [r]
  else if r < 2048 then [192 + r / 64, 128 + r % 64]
  else if (55296 ≤ r ∧ r ≤ 57343) ∨ 1114111 < r then [239, 191, 189]
  else if r < 65536 then [224 + r / 4096, 128 + r / 64 % 64, 128 + r % 64]
  else [240 + r / 262144, 128 + r / 4096 % 64, 128 + r / 64 % 64, 128 + r % 64]

/-- The loop of `utf8.Valid`, bounded by `fuel` steps. -/
def validLoop : Nat → Bytes → Bool
  | _, [] => true
  | 0, _ :: _ => false
  | fuel + 1, b :: rest =>
    if b < 128 then validLoop fuel rest
    else
      let size := (DecodeRune (b :: rest)).2
      if size = 1 then false else validLoop fuel (rest.drop (size - 1))

/-- The function `utf8.Valid`: `p` consists entirely of well-formed UTF-8
encodings. -/
def Valid (p : Bytes) : Bool := validLoop p.length p

/-! ## `strconv` -/

/-- The digit loop of `strconv.formatBits` in base 10, most significant digit
first. -/
def formatBits : Nat → Nat → Bytes → Bytes
  | 0, _, acc => acc
  | fuel + 1, u, acc =>
    if u < 10 then (48 + u) :: acc else formatBits fuel (u / 10) ((48 + u % 10) :: acc)

/-- The function `strconv.FormatInt(i, 10)`. -/
def FormatInt (i : Int) : Bytes :=
  if i < 0 then 45 :: formatBits ((-i).toNat + 1) (-i).toNat []
  else formatBits (i.toNat + 1) i.toNat []

/-- The digit loop of `strconv.ParseUint` in base 10: `none` on a byte that
is no digit. -/
def parseDigits : Bytes → Nat → Option Nat
  | [], acc => some acc
  | d :: ds, acc => if 48 ≤ d ∧ d ≤ 57 then parseDigits ds (acc * 10 + (d - 48)) else none

/-- The function `strconv.ParseInt(s, 10, 64)`: an optional sign, at least
one digit, and a value in the range of `int64`; `none` for an error. -/
def ParseInt (s : Bytes) : Option Int :=
  match s with
  | [] => none
  | c :: ds =>
    if c = 45 then
      if ds = [] then none
      else (parseDigits ds 0).bind fun n =>
        if n ≤ 9223372036854775808 then some (-(n : Int)) else none
    else
      let ds' := if c = 43 then ds else c :: ds
      if ds' = [] then none
      else (parseDigits ds' 0).bind fun n =>
        if n < 9223372036854775808 then some (n : Int) else none

/-! ## `encoding/json`: Marshal -/

/-- The table `hex` of package json: the lower-case hexadecimal digit. -/
def hexDigit (n : Nat) : Nat := if n < 10 then 48 + n else 87 + n

/-- The table `htmlSafeSet`: the ASCII bytes `Marshal` copies unescaped, all
printable ones but `"`, `&`, `<`, `>` and `\`. -/
def htmlSafe (b : Nat) : Bool :=
  32 ≤ b && b < 128 && b != 34 && b != 38 && b != 60 && b != 62 && b != 92

/-- The escape `appendString` writes for an ASCII byte outside `htmlSafeSet`:
a two-byte escape for `\`, `"` and the control characters that have one,
`\u00XX` for the others. -/
def escapeByte (b : Nat) : Bytes :=
  if b = 92 ∨ b = 34 then [92, b]
  else if b = 8 then [92, 98]
  else if b = 12 then [92, 102]
  else if b = 10 then [92, 110]
  else if b = 13 then [92, 114]
  else if b = 9 then [92, 116]
  else [92, 117, 48, 48, hexDigit (b / 16), hexDigit (b % 16)]

/-- The loop of `appendString(dst, src, true)`, bounded by `fuel` steps:
unsafe ASCII is escaped, ill-formed UTF-8 becomes the escape of U+FFFD, U+2028 and U+2029
are escaped, everything else is copied. -/
def quoteLoop : Nat → Bytes → Bytes
  | 0, _ => []
  | _, [] => []
  | fuel + 1, b :: rest =>
    if b < 128 then
      (if htmlSafe b then [b] else escapeByte b) ++ quoteLoop fuel rest
    else
      let cs := DecodeRune (b :: rest)
      if cs.1 = RuneError ∧ cs.2 = 1 then
        [92, 117, 102, 102, 102, 100] ++ quoteLoop fuel rest
      else if cs.1 = 8232 ∨ cs.1 = 8233 then
        [92, 117, 50, 48, 50, hexDigit (cs.1 % 16)] ++ quoteLoop fuel (rest.drop (cs.2 - 1))
      else
        (b :: rest).take cs.2 ++ quoteLoop fuel (rest.drop (cs.2 - 1))

/-- The function `appendString` on an empty destination: the JSON string
literal for `src`. -/
def appendString (src : Bytes) : Bytes := 34 :: (quoteLoop src.length src ++ [34])

/-- The call `json.Marshal(t)` for a `todo`: the object
`{"ID":<decimal>,"Text":<string literal>}`.  It has no error case for this
struct. -/
def Marshal (t : todo) : Bytes :=
  [123, 34, 73, 68, 34, 58] ++ FormatInt t.ID
    ++ [44, 34, 84, 101, 120, 116, 34, 58] ++ appendString t.Text ++ [125]

/-! ## `encoding/json`: Unmarshal -/

/-- A parsed JSON value.  A number keeps its literal, a string is unquoted. -/
inductive JSON where
  | null
  | bool (b : Bool)
  | number (lit : Bytes)
  | string (s : Bytes)
  | array (elems : List JSON)
  | object (members : List (Bytes × JSON))

/-- The function `isSpace` of the scanner: space, tab, carriage return, line
feed. -/
def isSpace (c : Nat) : Bool := c == 32 || c == 9 || c == 13 || c == 10

/-- Skips the white space the scanner allows between tokens. -/
def skipSpace : Bytes → Bytes
  | [] => []
  | c :: rest => if isSpace c then skipSpace rest else c :: rest

/-- The value of a hexadecimal digit, as in `getu4`; `none` for another byte. -/
def hexVal (c : Nat) : Option Nat :=
  if 48 ≤ c ∧ c ≤ 57 then some (c - 48)
  else if 97 ≤ c ∧ c ≤ 102 then some (c - 97 + 10)
  else if 65 ≤ c ∧ c ≤ 70 then some (c - 65 + 10)
  else none

/-- The string states of the scanner. -/
inductive StringState where
  | stateInString
  | stateInStringEsc
  | stateInStringEscU
  | stateInStringEscU1
  | stateInStringEscU12
  | stateInStringEscU123
deriving DecidableEq, Repr

/-- The scanner run byte by byte from one of its string states: the bytes up
to the closing quote and the input after it, `none` for a syntax error. -/
def scanStringFrom : StringState → Bytes → Option (Bytes × Bytes)
  | _, [] => none
  | StringState.stateInString, c :: rest =>
    if c = 34 then some ([], rest)
    else if c = 92 then
      (scanStringFrom StringState.stateInStringEsc rest).map fun r => (c :: r.1, r.2)
    else if c < 32 then none
    else (scanStringFrom StringState.stateInString rest).map fun r => (c :: r.1, r.2)
  | StringState.stateInStringEsc, c :: rest =>
    if c = 98 ∨ c = 102 ∨ c = 110 ∨ c = 114 ∨ c = 116 ∨ c = 92 ∨ c = 47 ∨ c = 34 then
      (scanStringFrom StringState.stateInString rest).map fun r => (c :: r.1, r.2)
    else if c = 117 then
      (scanStringFrom StringState.stateInStringEscU rest).map fun r => (c :: r.1, r.2)
    else none
  | StringState.stateInStringEscU, c :: rest =>
    if (hexVal c).isSome then
      (scanStringFrom StringState.stateInStringEscU1 rest).map fun r => (c :: r.1, r.2)
    else none
  | StringState.stateInStringEscU1, c :: rest =>
    if (hexVal c).isSome then
      (scanStringFrom StringState.stateInStringEscU12 rest).map fun r => (c :: r.1, r.2)
    else none
  | StringState.stateInStringEscU12, c :: rest =>
    if (hexVal c).isSome then
      (scanStringFrom StringState.stateInStringEscU123 rest).map fun r => (c :: r.1, r.2)
    else none
  | StringState.stateInStringEscU123, c :: rest =>
    if (hexVal c).isSome then
      (scanStringFrom StringState.stateInString rest).map fun r => (c :: r.1, r.2)
    else none

/-- The scanner on the input after an opening quote: the body of the string
literal and the input after its closing quote, `none` for a syntax error. -/
def scanString (s : Bytes) : Option (Bytes × Bytes) :=
  scanStringFrom StringState.stateInString s

/-- The function `getu4`: the code unit of a leading `\uXXXX`, `none` for
Go's `-1`. -/
def getu4 : Bytes → Option Nat
  | b :: u :: h1 :: h2 :: h3 :: h4 :: _ =>
    if b = 92 ∧ u = 117 then
      (hexVal h1).bind fun d1 => (hexVal h2).bind fun d2 =>
        (hexVal h3).bind fun d3 => (hexVal h4).bind fun d4 =>
          some (((d1 * 16 + d2) * 16 + d3) * 16 + d4)
    else none
  | _ => none

/-- The function `utf16.DecodeRune`: the code point of a surrogate pair,
U+FFFD when the two are no such pair. -/
def utf16DecodeRune (r1 : Nat) (r2 : Option Nat) : Nat :=
  match r2 with
  | some r2 =>
    if 55296 ≤ r1 ∧ r1 < 56320 ∧ 56320 ≤ r2 ∧ r2 < 57344 then
      (r1 - 55296) * 1024 + (r2 - 56320) + 65536
    else 65533
  | none => 65533

/-- One round of the conversion loop of `unquoteBytes` on a backslash
escape, the input starting after the backslash: the bytes written and the
input left, `none` when the escape is ill-formed. -/
def unquoteEscape (rest : Bytes) : Option (Bytes × Bytes) :=
  match rest with
  | [] => none
  | e :: rest1 =>
    if e = 34 ∨ e = 92 ∨ e = 47 ∨ e = 39 then some ([e], rest1)
    else if e = 98 then some ([8], rest1)
    else if e = 102 then some ([12], rest1)
    else if e = 110 then some ([10], rest1)
    else if e = 114 then some ([13], rest1)
    else if e = 116 then some ([9], rest1)
    else if e = 117 then
      match getu4 (92 :: rest) with
      | none => none
      | some rr =>
        if 55296 ≤ rr ∧ rr < 57344 then
          if utf16DecodeRune rr (getu4 (rest1.drop 4)) ≠ 65533 then
            some (EncodeRune (utf16DecodeRune rr (getu4 (rest1.drop 4))), rest1.drop 10)
          else some (EncodeRune 65533, rest1.drop 4)
        else some (EncodeRune rr, rest1.drop 4)
    else none

/-- One round of the conversion loop of `unquoteBytes` on a non-empty input:
the bytes written and the input left; an escape is replaced, ASCII is copied,
other bytes are decoded as a rune and encoded again, which coerces ill-formed
UTF-8 to U+FFFD. -/
def unquoteStep (c : Nat) (rest : Bytes) : Option (Bytes × Bytes) :=
  if c = 92 then unquoteEscape rest
  else if c = 34 ∨ c < 32 then none
  else if c < 128 then some ([c], rest)
  else some (EncodeRune (DecodeRune (c :: rest)).1, rest.drop ((DecodeRune (c :: rest)).2 - 1))

/-- The conversion loop of `unquoteBytes` on the body of a string literal,
bounded by `fuel` rounds. -/
def unquoteLoop : Nat → Bytes → Option Bytes
  | _, [] => some []
  | 0, _ :: _ => none
  | fuel + 1, c :: rest =>
    (unquoteStep c rest).bind fun r => (unquoteLoop fuel r.2).map fun out => r.1 ++ out

/-- The function `unquoteBytes` on the body of a string literal. -/
def unquote (body : Bytes) : Option Bytes := unquoteLoop body.length body

/-- The longest run of decimal digits at the head of the input, and the rest. -/
def takeDigits : Bytes → Bytes × Bytes
  | [] => ([], [])
  | d :: rest =>
    if 48 ≤ d ∧ d ≤ 57 then ((d :: (takeDigits rest).1), (takeDigits rest).2)
    else ([], d :: rest)

/-- The exponent part of a number literal (`stateE`, `stateESign`,
`stateE0`), when the input starts with `e` or `E`. -/
def scanExp (s : Bytes) : Option (Bytes × Bytes) :=
  match s with
  | e :: rest =>
    if e = 101 ∨ e = 69 then
      match rest with
      | sg :: rest1 =>
        if sg = 43 ∨ sg = 45 then
          if (takeDigits rest1).1 = [] then none
          else some (e :: sg :: (takeDigits rest1).1, (takeDigits rest1).2)
        else if (takeDigits rest).1 = [] then none
        else some (e :: (takeDigits rest).1, (takeDigits rest).2)
      | [] => none
    else some ([], s)
  | [] => some ([], s)

/-- The fraction part of a number literal (`stateDot`, `stateDot0`), when the
input starts with a dot, followed by the exponent part. -/
def scanFrac (s : Bytes) : Option (Bytes × Bytes) :=
  match s with
  | d :: rest =>
    if d = 46 then
      if (takeDigits rest).1 = [] then none
      else (scanExp (takeDigits rest).2).map fun r => (d :: (takeDigits rest).1 ++ r.1, r.2)
    else scanExp s
  | [] => some ([], s)

/-- The number states of the scanner (`stateNeg`, `state0`, `state1`, ...):
the literal and the input after it, `none` for a syntax error. -/
def scanNumber (s : Bytes) : Option (Bytes × Bytes) :=
  let sign : Bytes := match s with
    | c :: _ => if c = 45 then [45] else []
    | [] => []
  let s1 := s.drop sign.length
  match s1 with
  | d :: rest =>
    if d = 48 then (scanFrac rest).map fun r => (sign ++ 48 :: r.1, r.2)
    else if 49 ≤ d ∧ d ≤ 57 then
      (scanFrac (takeDigits rest).2).map fun r => (sign ++ d :: (takeDigits rest).1 ++ r.1, r.2)
    else none
  | [] => none

/-- The input starts with the byte `b`. -/
def headIs (b : Nat) (s : Bytes) : Bool := s.head? == some b

mutual

/-- One JSON value at the head of the input, after optional white space, and
the input after it; `none` for a syntax error.  The `fuel` bounds the number
of nested calls. -/
def parseValue : Nat → Bytes → Option (JSON × Bytes)
  | 0, _ => none
  | fuel + 1, s =>
    if headIs 123 (skipSpace s) then
      if headIs 125 (skipSpace (skipSpace s).tail) then
        some (JSON.object [], (skipSpace (skipSpace s).tail).tail)
      else
        (parseMembers fuel (skipSpace (skipSpace s).tail)).map fun r => (JSON.object r.1, r.2)
    else if headIs 91 (skipSpace s) then
      if headIs 93 (skipSpace (skipSpace s).tail) then
        some (JSON.array [], (skipSpace (skipSpace s).tail).tail)
      else
        (parseElements fuel (skipSpace (skipSpace s).tail)).map fun r => (JSON.array r.1, r.2)
    else if headIs 34 (skipSpace s) then
      (scanString (skipSpace s).tail).bind fun r =>
        (unquote r.1).map fun str => (JSON.string str, r.2)
    else if headIs 45 (skipSpace s) ∨ (takeDigits (skipSpace s)).1 ≠ [] then
      (scanNumber (skipSpace s)).map fun r => (JSON.number r.1, r.2)
    else if (skipSpace s).take 4 = [116, 114, 117, 101] then
      some (JSON.bool true, (skipSpace s).drop 4)
    else if (skipSpace s).take 5 = [102, 97, 108, 115, 101] then
      some (JSON.bool false, (skipSpace s).drop 5)
    else if (skipSpace s).take 4 = [110, 117, 108, 108] then
      some (JSON.null, (skipSpace s).drop 4)
    else none

/-- The members of an object from its first key up to the closing brace. -/
def parseMembers : Nat → Bytes → Option (List (Bytes × JSON) × Bytes)
  | 0, _ => none
  | fuel + 1, s =>
    if headIs 34 (skipSpace s) then
      (scanString (skipSpace s).tail).bind fun k => (unquote k.1).bind fun key =>
        if headIs 58 (skipSpace k.2) then
          (parseValue fuel (skipSpace k.2).tail).bind fun v =>
            if headIs 44 (skipSpace v.2) then
              (parseMembers fuel (skipSpace v.2).tail).map fun r => ((key, v.1) :: r.1, r.2)
            else if headIs 125 (skipSpace v.2) then
              some ([(key, v.1)], (skipSpace v.2).tail)
            else none
        else none
    else none

/-- The elements of an array from its first element up to the closing
bracket. -/
def parseElements : Nat → Bytes → Option (List JSON × Bytes)
  | 0, _ => none
  | fuel + 1, s =>
    (parseValue fuel s).bind fun v =>
      if headIs 44 (skipSpace v.2) then
        (parseElements fuel (skipSpace v.2).tail).map fun r => (v.1 :: r.1, r.2)
      else if headIs 93 (skipSpace v.2) then some ([v.1], (skipSpace v.2).tail)
      else none

end

/-- The pass `checkValid` together with the token reading of the decoder: the
one JSON value the whole input consists of, `none` for a syntax error.  Every
nested call consumes a byte, so `data.length + 1` calls are enough. -/
def parseJSON (data : Bytes) : Option JSON :=
  (parseValue (data.length + 1) data).bind fun r =>
    if skipSpace r.2 = [] then some r.1 else none

/-- The two kinds of error `json.Unmarshal` returns here. -/
inductive JSONError where
  | SyntaxError
  | UnmarshalTypeError
deriving DecidableEq, Repr

/-- ASCII upper case of a byte. -/
def foldByte (c : Nat) : Nat := if 97 ≤ c ∧ c ≤ 122 then c - 32 else c

/-- The match of an object key with a field name: exact or under case
folding.  The names `ID` and `Text` hold no `K` or `S`, the only ASCII
letters with a non-ASCII case variant, so folding is ASCII folding. -/
def fieldMatch (key name : Bytes) : Bool :=
  key = name || key.map foldByte = name.map foldByte

/-- The store of a JSON value into the field `ID int`: the new struct and
whether an `UnmarshalTypeError` was saved. -/
def storeID (v : JSON) (t : todo) : todo × Bool :=
  match v with
  | JSON.null => (t, false)
  | JSON.number lit =>
    match ParseInt lit with
    | some n => ({ t with ID := n }, false)
    | none => (t, true)
  | _ => (t, true)

/-- The store of a JSON value into the field `Text string`. -/
def storeText (v : JSON) (t : todo) : todo × Bool :=
  match v with
  | JSON.null => (t, false)
  | JSON.string str => ({ t with Text := str }, false)
  | _ => (t, true)

/-- The loop of `decodeState.object` over the members of the object: each
member whose key matches a field is stored, others are skipped, and the first
type error is kept while decoding goes on. -/
def decodeMembers : List (Bytes × JSON) → todo → Option JSONError → todo × Option JSONError
  | [], t, err => (t, err)
  | (key, v) :: ms, t, err =>
    if fieldMatch key [73, 68] then
      decodeMembers ms (storeID v t).1
        (if err.isNone ∧ (storeID v t).2 then some JSONError.UnmarshalTypeError else err)
    else if fieldMatch key [84, 101, 120, 116] then
      decodeMembers ms (storeText v t).1
        (if err.isNone ∧ (storeText v t).2 then some JSONError.UnmarshalTypeError else err)
    else decodeMembers ms t err

/-- The call `json.Unmarshal(data, &t)` for a `todo`: the struct afterwards
and the error returned.  A syntax error leaves the struct untouched; a type
error leaves the fields stored before and after it in place; `null` is a
no-op. -/
def Unmarshal (data : Bytes) (t : todo) : todo × Option JSONError :=
  match parseJSON data with
  | none => (t, some JSONError.SyntaxError)
  | some (JSON.object ms) => decodeMembers ms t none
  | some JSON.null => (t, none)
  | some _ => (t, some JSONError.UnmarshalTypeError)

/-! ## The commands of `todo.go` -/

/-- One print call of a command. -/
inductive Output where
  /-- The call `fmt.Println("error:", err)` of `get` and `list`. -/
  | errorLine (err : JSONError)
  /-- The call `fmt.Printf("%d)  %s\n", id, text)` of `get`. -/
  | getLine (id : Int) (text : Bytes)
  /-- The call `ctx.String("%d) %s\n", id, text)` of `add`. -/
  | addLine (id : Int) (text : Bytes)
  /-- The call `ctx.String("Todo succesfully added")`. -/
  | added
  /-- The call `ctx.String("Removed, todo - %d\n", id)`. -/
  | removed (id : Int)
  /-- The call `ctx.String("Todo succesfully edited")`. -/
  | edited
  /-- The call `ctx.String("Listing all items\n")`. -/
  | listHeader
  /-- The call `fmt.Printf("%d) %v\n", id, text)` of `list`. -/
  | listLine (id : Int) (text : Bytes)
  /-- The call `ctx.String("End of list \n")`. -/
  | listFooter
deriving DecidableEq, Repr

/-- The print of `err` under `if err != nil`. -/
def printError (err : Option JSONError) : List Output :=
  match err with
  | some e => [Output.errorLine e]
  | none => []

/-- The command `get`: the value at `itob(id)` (nil when absent) is decoded
into a zero `todo`; an error is printed, and the struct is printed in either
case. -/
def get (db : Bucket) (id : Int) : List Output :=
  let value := (db.Get (itob id)).getD []
  let r := Unmarshal value { ID := 0, Text := [] }
  printError r.2 ++ [Output.getLine r.1.ID r.1.Text]

/-- The command `add`: the next sequence number becomes the id, the record is
marshalled and put at `itob(id)`.  `Marshal` and `Put` have no error here, so
`db.Update` returns nil and the success line is printed. -/
def add (db : Bucket) (text : Bytes) : Bucket × List Output :=
  let newTodo : todo := { ID := int db.NextSequence.1, Text := text }
  (db.NextSequence.2.Put (itob newTodo.ID) (Marshal newTodo),
    [Output.addLine newTodo.ID newTodo.Text, Output.added])

/-- The command `remove`: the key `itob(id)` is deleted; `Delete` returns nil
and the success line is printed. -/
def remove (db : Bucket) (id : Int) : Bucket × List Output :=
  (db.Delete (itob id), [Output.removed id])

/-- The command `edit`: the record `todo{id, text}` is marshalled and put at
`itob(id)`, whether or not the key exists; `db.Update` returns nil and the
success line is printed. -/
def edit (db : Bucket) (id : Int) (text : Bytes) : Bucket × List Output :=
  let update : todo := { ID := id, Text := text }
  (db.Put (itob update.ID) (Marshal update), [Output.edited])

/-- The cursor loop of `list`: every value is decoded into the one variable
`todoSamp`, declared before the loop; an error is printed, and the variable
is printed in either case. -/
def listLoop : List (Bytes × Bytes) → todo → List Output
  | [], _ => []
  | (_, v) :: rest, todoSamp =>
    printError (Unmarshal v todoSamp).2
      ++ Output.listLine (Unmarshal v todoSamp).1.ID (Unmarshal v todoSamp).1.Text
      :: listLoop rest (Unmarshal v todoSamp).1

/-- The command `list`. -/
def list (db : Bucket) : List Output :=
  Output.listHeader :: (listLoop db.entries { ID := 0, Text := [] } ++ [Output.listFooter])

/-! ## Runs of commands and notions used by the statements -/

/-- A command line of the program with its arguments. -/
inductive Cmd where
  | add (text : Bytes)
  | remove (id : Int)
  | edit (id : Int) (text : Bytes)
  | get (id : Int)
  | list
deriving DecidableEq, Repr

/-- One process run: the command's transaction and its prints. -/
def step (db : Bucket) : Cmd → Bucket × List Output
  | Cmd.add text => add db text
  | Cmd.remove id => remove db id
  | Cmd.edit id text => edit db id text
  | Cmd.get id => (db, get db id)
  | Cmd.list => (db, list db)

/-- A sequence of process runs on the same database file, with all prints in
order. -/
def run (db : Bucket) : List Cmd → Bucket × List Output
  | [] => (db, [])
  | c :: cs => ((run (step db c).1 cs).1, (step db c).2 ++ (run (step db c).1 cs).2)

/-- The command is an `add` or a `remove`. -/
def Cmd.isAddOrRemove : Cmd → Bool
  | Cmd.add _ => true
  | Cmd.remove _ => true
  | _ => false

/-- The number of `add` commands in a sequence. -/
def countAdds : List Cmd → Nat
  | [] => 0
  | Cmd.add _ :: cs => countAdds cs + 1
  | _ :: cs => countAdds cs

/-- The ids the `add` commands printed, in order. -/
def addedIDs : List Output → List Int
  | [] => []
  | Output.addLine id _ :: out => id :: addedIDs out
  | _ :: out => addedIDs out

/-- The print reports an error. -/
def Output.isError : Output → Bool
  | Output.errorLine _ => true
  | _ => false

/-- The record lines that `list` printed, as (id, text) pairs in order. -/
def listedRecords : List Output → List (Int × Bytes)
  | [] => []
  | Output.listLine id text :: out => (id, text) :: listedRecords out
  | _ :: out => listedRecords out

/-- The number a big endian byte string stands for. -/
def beVal : Bytes → Nat
  | [] => 0
  | b :: bs => b * 256 ^ bs.length + beVal bs

/-- The text `Unmarshal` reads back from the string literal `Marshal` wrote
for `src`, bounded by `fuel` steps: `src` with every byte that starts no
well-formed UTF-8 encoding replaced by the encoding of U+FFFD. -/
def coerceLoop : Nat → Bytes → Bytes
  | 0, _ => []
  | _, [] => []
  | fuel + 1, b :: rest =>
    if b < 128 then b :: coerceLoop fuel rest
    else if (DecodeRune (b :: rest)).1 = RuneError ∧ (DecodeRune (b :: rest)).2 = 1 then
      [239, 191, 189] ++ coerceLoop fuel rest
    else
      (b :: rest).take (DecodeRune (b :: rest)).2
        ++ coerceLoop fuel (rest.drop ((DecodeRune (b :: rest)).2 - 1))

/-- The text read back from the marshalled form of `src`. -/
def coerce (src : Bytes) : Bytes := coerceLoop src.length src

/-- The run `P` of bytes inside a string literal is passed over by the
scanner and turned into `D` by `unquoteLoop`, using one unit of fuel. -/
def Piece (P D : Bytes) : Prop :=
  (∀ s, scanString (P ++ s) = (scanString s).map (fun r => (P ++ r.1, r.2))) ∧
  (∀ g s, unquoteLoop (g + 1) (P ++ s) = (unquoteLoop g s).map (fun r => D ++ r))

/-- The byte string `ds` is the decimal numeral of `u`: digits only, no
leading zero, and `parseDigits` reads `u` from it. -/
def IsDecimal (ds : Bytes) (u : Nat) : Prop :=
  (∀ d ∈ ds, 48 ≤ d ∧ d ≤ 57)
    ∧ (u = 0 → ds = [48])
    ∧ (u ≠ 0 → ∃ d t, ds = d :: t ∧ 49 ≤ d)
    ∧ ∀ a, parseDigits ds a = some (a * 10 ^ ds.length + u)

/-- The bucket entry `add` and `edit` write for a record. -/
def entryOf (r : todo) : Bytes × Bytes := (itob r.ID, Marshal r)

/-- Insertion of a record into a list of records ordered by id, a record with
the same id being replaced: what `Put` does to the entries, seen on the
records. -/
def insertRec (r : todo) : List todo → List todo
  | [] => [r]
  | a :: as =>
    if r.ID < a.ID then r :: a :: as
    else if r.ID = a.ID then r :: as
    else a :: insertRec r as

/-- The invariant of reachable buckets: the entries are the entries of a list
of records with non-negative `int` ids in strictly ascending order. -/
def Inv (db : Bucket) : Prop :=
  ∃ recs : List todo, db.entries = recs.map entryOf
    ∧ recs.Pairwise (fun a b => a.ID < b.ID)
    ∧ ∀ r ∈ recs, 0 ≤ r.ID ∧ isInt r.ID

/-- The record stored in a bucket entry: its value decoded into a zero
`todo`. -/
def decodeEntry (e : Bytes × Bytes) : todo := (Unmarshal e.2 { ID := 0, Text := [] }).1

/-- The buckets reachable from the empty bucket by `add`, `edit` and `remove`
runs in which every record id, assigned by `add` or passed to `edit`, is a
non-negative `int`. -/
inductive Reachable : Bucket → Prop where
  | empty : Reachable Bucket.empty
  | add (db : Bucket) (text : Bytes) (h : Reachable db)
      (hid : 0 ≤ int db.NextSequence.1) : Reachable (add db text).1
  | edit (db : Bucket) (id : Int) (text : Bytes) (h : Reachable db)
      (h0 : 0 ≤ id) (hint : isInt id) : Reachable (edit db id text).1
  | remove (db : Bucket) (id : Int) (h : Reachable db) : Reachable (remove db id).1

end TodoGo

open TodoGo

/-! ## Key order -/

theorem beVal_lt (l : Bytes) (h : ∀ b ∈ l, b < 256) : beVal l < 256 ^ l.length := by
  induction l with
  | nil => simp [beVal]
  | cons b bs ih =>
    have hb : b < 256 := h b (List.mem_cons_self _ _)
    have ht := ih (fun c hc => h c (List.mem_cons_of_mem _ hc))
    simp only [beVal, List.length_cons, pow_succ]
    nlinarith

theorem bytesLt_iff_beVal (l₁ l₂ : Bytes) (hlen : l₁.length = l₂.length)
    (h₁ : ∀ b ∈ l₁, b < 256) (h₂ : ∀ b ∈ l₂, b < 256) :
    bytesLt l₁ l₂ = true ↔ beVal l₁ < beVal l₂ := by
  induction l₁ generalizing l₂ with
  | nil =>
    cases l₂ with
    | nil => simp [bytesLt, beVal]
    | cons b bs => simp at hlen
  | cons a as ih =>
    cases l₂ with
    | nil => simp at hlen
    | cons b bs =>
      have hl : as.length = bs.length := by simpa using hlen
      have ha := beVal_lt as (fun c hc => h₁ c (List.mem_cons_of_mem _ hc))
      have hb := beVal_lt bs (fun c hc => h₂ c (List.mem_cons_of_mem _ hc))
      have ih' := ih bs hl (fun c hc => h₁ c (List.mem_cons_of_mem _ hc))
        (fun c hc => h₂ c (List.mem_cons_of_mem _ hc))
      rw [hl] at ha
      simp only [bytesLt, beVal, hl]
      generalize 256 ^ bs.length = P at ha hb
      by_cases hab : a < b
      · simp only [hab, if_true, true_iff]
        nlinarith
      · by_cases hba : b < a
        · simp only [hab, hba, if_false, if_true]
          constructor
          · intro h; cases h
          · intro h; exfalso; nlinarith
        · have : a = b := by omega
          subst this
          simp only [lt_self_iff_false, if_false, ih']
          omega

theorem beVal_PutUint64 (x : Nat) (hx : x < 18446744073709551616) :
    beVal (PutUint64 x) = x := by
  unfold PutUint64
  simp only [beVal, List.length_cons, List.length_nil]
  norm_num
  omega

theorem PutUint64_lt (x : Nat) : ∀ b ∈ PutUint64 x, b < 256 := by
  intro b hb
  unfold PutUint64 at hb
  simp only [List.mem_cons, List.mem_singleton, List.not_mem_nil, or_false] at hb
  omega

theorem bytesLt_PutUint64 (x y : Nat) (hxy : x < y) (hy : y < 18446744073709551616) :
    bytesLt (PutUint64 x) (PutUint64 y) = true := by
  rw [bytesLt_iff_beVal _ _ (by simp [PutUint64]) (PutUint64_lt x) (PutUint64_lt y),
    beVal_PutUint64 x (by omega), beVal_PutUint64 y hy]
  exact hxy

/-! ## The bucket as a map -/

theorem find_putEntries_self (k v : Bytes) (l : List (Bytes × Bytes)) :
    (putEntries k v l).find? (fun e => e.1 = k) = some (k, v) := by
  induction l with
  | nil => simp [putEntries]
  | cons e rest ih =>
    obtain ⟨k', v'⟩ := e
    simp only [putEntries]
    split_ifs with h1 h2
    · simp
    · simp
    · rw [List.find?_cons_of_neg _ (by simpa using fun h => h2 h.symm)]
      exact ih

theorem find_putEntries_ne (k v k2 : Bytes) (hne : k2 ≠ k) (l : List (Bytes × Bytes)) :
    (putEntries k v l).find? (fun e => e.1 = k2) = l.find? (fun e => e.1 = k2) := by
  induction l with
  | nil => simp [putEntries, hne.symm]
  | cons e rest ih =>
    obtain ⟨k', v'⟩ := e
    simp only [putEntries]
    split_ifs with h1 h2
    · rw [List.find?_cons_of_neg _ (by simpa using hne.symm)]
    · subst h2
      rw [List.find?_cons_of_neg _ (by simpa using hne.symm),
        List.find?_cons_of_neg _ (by simpa using hne.symm)]
    · by_cases hk : k' = k2
      · simp [hk]
      · rw [List.find?_cons_of_neg _ (by simpa using hk),
          List.find?_cons_of_neg _ (by simpa using hk)]
        exact ih

theorem Get_Put_self (db : Bucket) (k v : Bytes) : (db.Put k v).Get k = some v := by
  simp [Bucket.Get, Bucket.Put, find_putEntries_self]

theorem Get_Put_ne (db : Bucket) (k v k2 : Bytes) (hne : k2 ≠ k) :
    (db.Put k v).Get k2 = db.Get k2 := by
  simp [Bucket.Get, Bucket.Put, find_putEntries_ne k v k2 hne]

theorem Get_Delete_self (db : Bucket) (k : Bytes) : (db.Delete k).Get k = none := by
  simp only [Bucket.Get, Bucket.Delete, Option.map_eq_none']
  rw [List.find?_eq_none]
  intro e he
  have := (List.mem_filter.mp he).2
  simpa using this

theorem Delete_absent (db : Bucket) (k : Bytes) (h : db.Get k = none) : db.Delete k = db := by
  obtain ⟨sq, es⟩ := db
  simp only [Bucket.Get, Option.map_eq_none'] at h
  rw [List.find?_eq_none] at h
  simp only [Bucket.Delete, Bucket.mk.injEq, true_and]
  rw [List.filter_eq_self]
  intro e he
  simpa using h e he

/-! ## Machine integers -/

theorem uint64_of_nonneg (v : Int) (h0 : 0 ≤ v) (h : v < 18446744073709551616) :
    uint64 v = v.toNat := by
  unfold uint64
  rw [Int.emod_eq_of_lt h0 h]

theorem uint64_lt (v : Int) : uint64 v < 18446744073709551616 := by
  unfold uint64
  have h1 : 0 ≤ v % 18446744073709551616 := Int.emod_nonneg _ (by norm_num)
  have h2 : v % 18446744073709551616 < 18446744073709551616 := Int.emod_lt_of_pos _ (by norm_num)
  omega

theorem int_of_lt (u : Nat) (h : u < 9223372036854775808) : TodoGo.int u = (u : Int) := by
  unfold TodoGo.int
  have : u % 18446744073709551616 = u := Nat.mod_eq_of_lt (by omega)
  rw [this, if_pos h]

theorem itob_length (v : Int) : (itob v).length = 8 := by
  simp [itob, PutUint64]

theorem itob_injective_of_nonneg (a b : Int) (ha : 0 ≤ a) (ha' : a < 18446744073709551616)
    (hb : 0 ≤ b) (hb' : b < 18446744073709551616) (h : itob a = itob b) : a = b := by
  have h1 := beVal_PutUint64 (uint64 a) (uint64_lt a)
  have h2 := beVal_PutUint64 (uint64 b) (uint64_lt b)
  unfold itob at h
  rw [h, h2] at h1
  rw [uint64_of_nonneg a ha ha', uint64_of_nonneg b hb hb'] at h1
  omega

theorem bytesLt_itob_iff (a b : Int) (ha : 0 ≤ a) (ha' : a < 18446744073709551616)
    (hb : 0 ≤ b) (hb' : b < 18446744073709551616) :
    bytesLt (itob a) (itob b) = true ↔ a < b := by
  unfold itob
  rw [bytesLt_iff_beVal _ _ (by simp [PutUint64]) (PutUint64_lt _) (PutUint64_lt _),
    beVal_PutUint64 _ (uint64_lt a), beVal_PutUint64 _ (uint64_lt b),
    uint64_of_nonneg a ha ha', uint64_of_nonneg b hb hb']
  omega

/-! ## C4: key ordering -/

/-- C4. For non-negative ids `a < b` of type `int`, `itob a` and `itob b` are
8 bytes long and `itob a` is strictly below `itob b` in unsigned
lexicographic byte order. -/
theorem itob_strictMono (a b : Int) (h0 : 0 ≤ a) (hab : a < b) (hb : isInt b) :
    (itob a).length = 8 ∧ (itob b).length = 8 ∧ bytesLt (itob a) (itob b) = true := by
  have hb' := hb.2
  refine ⟨itob_length a, itob_length b, ?_⟩
  exact (bytesLt_itob_iff a b h0 (by omega) (by omega) (by omega)).mpr hab

theorem itob_strictMono_witness :
    (0 : Int) ≤ 255 ∧ (255 : Int) < 256 ∧ isInt 256 ∧
      ((itob 255).length = 8 ∧ (itob 256).length = 8 ∧ bytesLt (itob 255) (itob 256) = true) :=
  ⟨by decide, by decide, by decide, itob_strictMono 255 256 (by decide) (by decide) (by decide)⟩

/-! ## C9: idempotent delete -/

/-- C9. For an id with no record in the bucket, `remove` prints its success
line and no error, and leaves the bucket (entries and sequence counter) as it
was; so does running it a second time. -/
theorem remove_absent (db : Bucket) (id : Int) (h : db.Get (itob id) = none) :
    (TodoGo.remove db id).2 = [Output.removed id]
      ∧ (TodoGo.remove db id).1 = db
      ∧ (TodoGo.remove (TodoGo.remove db id).1 id).2 = [Output.removed id]
      ∧ (TodoGo.remove (TodoGo.remove db id).1 id).1 = db := by
  have hd : db.Delete (itob id) = db := Delete_absent db (itob id) h
  simp [TodoGo.remove, hd]

theorem remove_absent_witness :
    (TodoGo.add Bucket.empty [97]).1.Get (itob 2) = none ∧
      ((TodoGo.remove (TodoGo.add Bucket.empty [97]).1 2).2 = [Output.removed 2]
      ∧ (TodoGo.remove (TodoGo.add Bucket.empty [97]).1 2).1 = (TodoGo.add Bucket.empty [97]).1
      ∧ (TodoGo.remove (TodoGo.remove (TodoGo.add Bucket.empty [97]).1 2).1 2).2
          = [Output.removed 2]
      ∧ (TodoGo.remove (TodoGo.remove (TodoGo.add Bucket.empty [97]).1 2).1 2).1
          = (TodoGo.add Bucket.empty [97]).1) :=
  ⟨by decide, remove_absent (TodoGo.add Bucket.empty [97]).1 2 (by decide)⟩

/-! ## C7: get after remove -/

/-- C7 (code evaluated). After `remove db id`, `get` of that id prints the
error of decoding an absent value and then still prints a record line, the
zero record `0)  `. -/
theorem get_after_remove (db : Bucket) (id : Int) :
    TodoGo.get (TodoGo.remove db id).1 id
      = [Output.errorLine JSONError.SyntaxError, Output.getLine 0 []] := by
  have h : (TodoGo.remove db id).1.Get (itob id) = none := Get_Delete_self db (itob id)
  unfold TodoGo.get
  rw [h]
  decide

/-! ## C8: a corrupt value in list -/

/-- C8 (code evaluated). With record 1 stored by `add` and the value at key 2
replaced by the bytes `junk`, `list` prints the line of record 1, one decode
error, and then the line of record 1 a second time for the corrupt entry. -/
theorem list_corrupt_entry :
    TodoGo.list { sequence := 2,
                  entries := [(itob 1, Marshal { ID := 1, Text := [97] }),
                              (itob 2, [106, 117, 110, 107])] }
      = [Output.listHeader, Output.listLine 1 [97],
         Output.errorLine JSONError.SyntaxError, Output.listLine 1 [97],
         Output.listFooter] := by
  decide

/-! ## C10: an id made by edit collides with a later add -/

/-- C10. From the empty bucket, `edit 1 "x"` followed by `add "y"`: the edit
creates record 1 with text `x`, the add is assigned id 1 as well, no error is
printed, and record 1 now holds `y`. -/
theorem edit_then_add_collides :
    ∃ t1 t2 : Bytes, t1 ≠ t2
      ∧ TodoGo.get (TodoGo.edit Bucket.empty 1 t1).1 1 = [Output.getLine 1 t1]
      ∧ (TodoGo.add (TodoGo.edit Bucket.empty 1 t1).1 t2).2 = [Output.addLine 1 t2, Output.added]
      ∧ (∀ o ∈ (run Bucket.empty [Cmd.edit 1 t1, Cmd.add t2]).2, o.isError = false)
      ∧ TodoGo.get (run Bucket.empty [Cmd.edit 1 t1, Cmd.add t2]).1 1 = [Output.getLine 1 t2]
      ∧ (run Bucket.empty [Cmd.edit 1 t1, Cmd.add t2]).1.entries.length = 1 :=
  ⟨[120], [121], by decide, by decide, by decide, by decide, by decide, by decide⟩

/-! ## C5: edit on a missing id -/

/-- C5 (as stated, refuted). The claim that `edit` on an id with no record
reports an error or leaves the bucket unchanged fails on the empty bucket:
`edit 1 "x"` prints no error and the bucket is changed. -/
theorem edit_absent_not_noop :
    ¬ (∀ (db : Bucket) (id : Int) (text : Bytes), db.Get (itob id) = none →
        ((∃ o ∈ (TodoGo.edit db id text).2, o.isError = true)
          ∨ (TodoGo.edit db id text).1 = db)) := by
  intro h
  have h1 := h Bucket.empty 1 [120] (by decide)
  revert h1
  decide

/-- C5 (amended). For an id with no record in the bucket, `edit` prints its
success line and no error, and creates the entry `itob id ↦ Marshal {id,
text}`; the entries at all other keys and the sequence counter are
unchanged. -/
theorem edit_absent_creates (db : Bucket) (id : Int) (text : Bytes)
    (h : db.Get (itob id) = none) :
    (TodoGo.edit db id text).2 = [Output.edited]
      ∧ (TodoGo.edit db id text).1.Get (itob id) = some (Marshal { ID := id, Text := text })
      ∧ (TodoGo.edit db id text).1 ≠ db
      ∧ (∀ k : Bytes, k ≠ itob id → (TodoGo.edit db id text).1.Get k = db.Get k)
      ∧ (TodoGo.edit db id text).1.sequence = db.sequence := by
  refine ⟨rfl, Get_Put_self db _ _, ?_, fun k hk => Get_Put_ne db _ _ k hk, rfl⟩
  intro heq
  have h2 : (TodoGo.edit db id text).1.Get (itob id)
      = some (Marshal { ID := id, Text := text }) := Get_Put_self db _ _
  rw [heq, h] at h2
  cases h2

theorem edit_absent_creates_witness :
    Bucket.empty.Get (itob 5) = none ∧
      ((TodoGo.edit Bucket.empty 5 [120]).2 = [Output.edited]
      ∧ (TodoGo.edit Bucket.empty 5 [120]).1.Get (itob 5)
          = some (Marshal { ID := 5, Text := [120] })
      ∧ (TodoGo.edit Bucket.empty 5 [120]).1 ≠ Bucket.empty
      ∧ (∀ k : Bytes, k ≠ itob 5 → (TodoGo.edit Bucket.empty 5 [120]).1.Get k
          = Bucket.empty.Get k)
      ∧ (TodoGo.edit Bucket.empty 5 [120]).1.sequence = Bucket.empty.sequence) :=
  ⟨by decide, edit_absent_creates Bucket.empty 5 [120] (by decide)⟩

/-! ## C2: the ids assigned by add -/

theorem addedIDs_append (a b : List Output) : addedIDs (a ++ b) = addedIDs a ++ addedIDs b := by
  induction a with
  | nil => rfl
  | cons o rest ih => cases o <;> simp [addedIDs, ih]

theorem int_congr (a b : Nat) (h : a % 18446744073709551616 = b % 18446744073709551616) :
    TodoGo.int a = TodoGo.int b := by
  unfold TodoGo.int
  rw [h]

theorem map_range_succ (f : Nat → Int) (s n : Nat) :
    (List.range' (s + 1) n).map f = (List.range' s n).map (fun k => f (k + 1)) := by
  induction n generalizing s with
  | zero => simp
  | succ n ih => simp [List.range'_succ, ih]

theorem addedIDs_run (cmds : List Cmd) (db : Bucket)
    (h : ∀ c ∈ cmds, c.isAddOrRemove = true) :
    addedIDs (run db cmds).2
      = (List.range' 1 (countAdds cmds)).map (fun k => TodoGo.int (db.sequence + k)) := by
  induction cmds generalizing db with
  | nil => simp [run, addedIDs, countAdds]
  | cons c cs ih =>
    have hcs : ∀ c ∈ cs, c.isAddOrRemove = true := fun c hc => h c (List.mem_cons_of_mem _ hc)
    have hc := h c (List.mem_cons_self _ _)
    cases c with
    | add text =>
      simp only [run, step, addedIDs_append, countAdds]
      rw [ih _ hcs, List.range'_succ, List.map_cons, map_range_succ _ 1]
      simp only [TodoGo.add, addedIDs, Bucket.NextSequence, Bucket.Put, List.singleton_append,
        List.cons.injEq]
      refine ⟨int_congr _ _ (by simp), ?_⟩
      apply List.map_congr_left
      intro k _
      apply int_congr
      omega
    | remove id =>
      simp only [run, step, addedIDs_append, countAdds]
      rw [ih _ hcs]
      simp [TodoGo.remove, addedIDs, Bucket.Delete]
    | edit id text => simp [Cmd.isAddOrRemove] at hc
    | get id => simp [Cmd.isAddOrRemove] at hc
    | list => simp [Cmd.isAddOrRemove] at hc

theorem countAdds_replicate (n : Nat) (t : Bytes) :
    countAdds (List.replicate n (Cmd.add t)) = n := by
  induction n with
  | zero => rfl
  | succ n ih => simp [List.replicate_succ, countAdds, ih]

/-- C2 (as stated, refuted). With 2^63 `add` runs on the empty bucket the
ids handed out are not 1, ..., 2^63: the last one is the conversion
`int(uint64(2^63))`, which is -2^63. -/
theorem addedIDs_wrap :
    countAdds (List.replicate 9223372036854775808 (Cmd.add [])) = 9223372036854775808
      ∧ (∀ c ∈ List.replicate 9223372036854775808 (Cmd.add []), c.isAddOrRemove = true)
      ∧ addedIDs (run Bucket.empty (List.replicate 9223372036854775808 (Cmd.add []))).2
          ≠ (List.range' 1 9223372036854775808).map (fun k : Nat => (k : Int))
      ∧ (-9223372036854775808 : Int)
          ∈ addedIDs (run Bucket.empty (List.replicate 9223372036854775808 (Cmd.add []))).2 := by
  have hall : ∀ c ∈ List.replicate 9223372036854775808 (Cmd.add []), c.isAddOrRemove = true := by
    intro c hc
    rw [(List.mem_replicate.mp hc).2]
    rfl
  have hmem : (-9223372036854775808 : Int)
      ∈ addedIDs (run Bucket.empty (List.replicate 9223372036854775808 (Cmd.add []))).2 := by
    rw [addedIDs_run _ _ hall, countAdds_replicate]
    refine List.mem_map.mpr ⟨9223372036854775808, ?_, ?_⟩
    · rw [List.mem_range'_1]
      omega
    · simp [TodoGo.int, Bucket.empty]
  refine ⟨countAdds_replicate _ _, hall, ?_, hmem⟩
  intro heq
  rw [heq] at hmem
  obtain ⟨k, _, hk⟩ := List.mem_map.mp hmem
  omega

/-- C2 (amended). From the empty bucket, for every sequence of `add` and
`remove` runs with `n < 2^63` adds, the ids handed out by the adds are
exactly 1, 2, ..., n in this order, whatever the removes in between. -/
theorem addedIDs_sequential (n : Nat) (cmds : List Cmd)
    (hcmds : ∀ c ∈ cmds, c.isAddOrRemove = true) (hcount : countAdds cmds = n)
    (hn : n < 9223372036854775808) :
    addedIDs (run Bucket.empty cmds).2 = (List.range' 1 n).map (fun k : Nat => (k : Int)) := by
  rw [addedIDs_run _ _ hcmds, hcount]
  apply List.map_congr_left
  intro k hk
  rw [List.mem_range'_1] at hk
  simp only [Bucket.empty, Nat.zero_add]
  exact int_of_lt k (by omega)

theorem addedIDs_sequential_witness :
    (∀ c ∈ [Cmd.add [97], Cmd.remove 1, Cmd.add [98], Cmd.add [99]], c.isAddOrRemove = true)
      ∧ countAdds [Cmd.add [97], Cmd.remove 1, Cmd.add [98], Cmd.add [99]] = 3
      ∧ (3 : Nat) < 9223372036854775808
      ∧ addedIDs (run Bucket.empty [Cmd.add [97], Cmd.remove 1, Cmd.add [98], Cmd.add [99]]).2
          = (List.range' 1 3).map (fun k : Nat => (k : Int)) :=
  ⟨by decide, by decide, by decide,
    addedIDs_sequential 3 [Cmd.add [97], Cmd.remove 1, Cmd.add [98], Cmd.add [99]]
      (by decide) (by decide) (by decide)⟩

/-! ## UTF-8: decoding a well-formed encoding and encoding it again -/

/-- The shape of `DecodeRune` on a lead byte of 128 or more: either the error
of width 1, or a well-formed encoding `p` of 2 to 4 bytes, all 128 or more,
which `EncodeRune` gives back and which decodes the same before any tail. -/
theorem DecodeRune_multi (b0 : Nat) (rest : Bytes) (h128 : 128 ≤ b0) :
    DecodeRune (b0 :: rest) = (RuneError, 1) ∨
    ∃ p t, b0 :: rest = p ++ t ∧ p.length = (DecodeRune (b0 :: rest)).2 ∧ 2 ≤ p.length
      ∧ (∀ c ∈ p, 128 ≤ c) ∧ EncodeRune (DecodeRune (b0 :: rest)).1 = p
      ∧ (∀ t', DecodeRune (p ++ t') = DecodeRune (b0 :: rest)) := by
  have hlt : ¬ b0 < 128 := by omega
  by_cases h2 : 194 ≤ b0 ∧ b0 ≤ 223
  · cases rest with
    | nil => left; simp [DecodeRune, hlt, h2]
    | cons b1 t =>
      by_cases hb1 : 128 ≤ b1 ∧ b1 ≤ 191
      · right
        refine ⟨[b0, b1], t, rfl, ?_, by simp, ?_, ?_, ?_⟩
        · simp [DecodeRune, hlt, h2, hb1]
        · intro c hc
          simp only [List.mem_cons, List.mem_singleton, List.not_mem_nil, or_false] at hc
          omega
        · simp only [DecodeRune, hlt, h2, hb1, and_self, if_true, if_false]
          unfold EncodeRune
          have e1 : ¬ (b0 % 32 * 64 + b1 % 64 < 128) := by omega
          have e2 : b0 % 32 * 64 + b1 % 64 < 2048 := by omega
          rw [if_neg e1, if_pos e2]
          congr 1
          · omega
          · congr 1
            omega
        · intro t'
          simp [DecodeRune, hlt, h2, hb1]
      · left; simp [DecodeRune, hlt, h2, hb1]
  · by_cases h3 : 224 ≤ b0 ∧ b0 ≤ 239
    · match rest with
      | [] => left; simp [DecodeRune, hlt, h2, h3]
      | [_] => left; simp [DecodeRune, hlt, h2, h3]
      | b1 :: b2 :: t =>
        by_cases hb : (if b0 = 224 then 160 else 128) ≤ b1 ∧ b1 ≤ (if b0 = 237 then 159 else 191)
            ∧ 128 ≤ b2 ∧ b2 ≤ 191
        · right
          have hb' := hb
          have hb1lo : 128 ≤ b1 := by
            have := hb.1
            split_ifs at this <;> omega
          have hb1hi : b1 ≤ 191 := by
            have := hb.2.1
            split_ifs at this <;> omega
          refine ⟨[b0, b1, b2], t, rfl, ?_, by simp, ?_, ?_, ?_⟩
          · simp only [DecodeRune, hlt, h2, h3, if_false, and_self, if_true]
            rw [if_pos hb]
            rfl
          · intro c hc
            simp only [List.mem_cons, List.mem_singleton, List.not_mem_nil, or_false] at hc
            omega
          · simp only [DecodeRune, hlt, h2, h3, if_false, and_self, if_true]
            rw [if_pos hb]
            unfold EncodeRune
            have k1 : b0 = 224 → 160 ≤ b1 := by
              intro h; have := hb.1; rw [if_pos h] at this; exact this
            have k2 : b0 = 237 → b1 ≤ 159 := by
              intro h; have := hb.2.1; rw [if_pos h] at this; exact this
            have e1 : ¬ (b0 % 16 * 4096 + b1 % 64 * 64 + b2 % 64 < 128) := by omega
            have e2 : ¬ (b0 % 16 * 4096 + b1 % 64 * 64 + b2 % 64 < 2048) := by omega
            have e3 : ¬ ((55296 ≤ b0 % 16 * 4096 + b1 % 64 * 64 + b2 % 64
                ∧ b0 % 16 * 4096 + b1 % 64 * 64 + b2 % 64 ≤ 57343)
                ∨ 1114111 < b0 % 16 * 4096 + b1 % 64 * 64 + b2 % 64) := by omega
            have e4 : b0 % 16 * 4096 + b1 % 64 * 64 + b2 % 64 < 65536 := by omega
            simp only [if_neg e1, if_neg e2, if_neg e3, if_pos e4]
            congr 1
            · omega
            · congr 1
              · omega
              · congr 1
                omega
          · intro t'
            simp only [List.cons_append, List.nil_append, DecodeRune, hlt, h2, h3, if_false,
              and_self, if_true]
        · left
          simp only [DecodeRune, hlt, h2, h3, if_false, and_self, if_true]
          rw [if_neg hb]
    · by_cases h4 : 240 ≤ b0 ∧ b0 ≤ 244
      · match rest with
        | [] => left; simp [DecodeRune, hlt, h2, h3, h4]
        | [_] => left; simp [DecodeRune, hlt, h2, h3, h4]
        | [_, _] => left; simp [DecodeRune, hlt, h2, h3, h4]
        | b1 :: b2 :: b3 :: t =>
          by_cases hb : (if b0 = 240 then 144 else 128) ≤ b1
              ∧ b1 ≤ (if b0 = 244 then 143 else 191)
              ∧ 128 ≤ b2 ∧ b2 ≤ 191 ∧ 128 ≤ b3 ∧ b3 ≤ 191
          · right
            have hb1lo : 128 ≤ b1 := by
              have := hb.1
              split_ifs at this <;> omega
            have hb1hi : b1 ≤ 191 := by
              have := hb.2.1
              split_ifs at this <;> omega
            have k1 : b0 = 240 → 144 ≤ b1 := by
              intro h; have := hb.1; rw [if_pos h] at this; exact this
            have k2 : b0 = 244 → b1 ≤ 143 := by
              intro h; have := hb.2.1; rw [if_pos h] at this; exact this
            refine ⟨[b0, b1, b2, b3], t, rfl, ?_, by simp, ?_, ?_, ?_⟩
            · simp only [DecodeRune, hlt, h2, h3, h4, if_false, and_self, if_true]
              rw [if_pos hb]
              rfl
            · intro c hc
              simp only [List.mem_cons, List.mem_singleton, List.not_mem_nil, or_false] at hc
              omega
            · simp only [DecodeRune, hlt, h2, h3, h4, if_false, and_self, if_true]
              rw [if_pos hb]
              unfold EncodeRune
              have e1 : ¬ (b0 % 8 * 262144 + b1 % 64 * 4096 + b2 % 64 * 64 + b3 % 64 < 128) := by
                omega
              have e2 : ¬ (b0 % 8 * 262144 + b1 % 64 * 4096 + b2 % 64 * 64 + b3 % 64 < 2048) := by
                omega
              have e3 : ¬ ((55296 ≤ b0 % 8 * 262144 + b1 % 64 * 4096 + b2 % 64 * 64 + b3 % 64
                  ∧ b0 % 8 * 262144 + b1 % 64 * 4096 + b2 % 64 * 64 + b3 % 64 ≤ 57343)
                  ∨ 1114111 < b0 % 8 * 262144 + b1 % 64 * 4096 + b2 % 64 * 64 + b3 % 64) := by
                omega
              have e4 : ¬ (b0 % 8 * 262144 + b1 % 64 * 4096 + b2 % 64 * 64 + b3 % 64 < 65536) := by
                omega
              simp only [if_neg e1, if_neg e2, if_neg e3, if_neg e4]
              congr 1
              · omega
              · congr 1
                · omega
                · congr 1
                  · omega
                  · congr 1
                    omega
            · intro t'
              simp only [List.cons_append, List.nil_append, DecodeRune, hlt, h2, h3, h4, if_false,
                and_self, if_true]
          · left
            simp only [DecodeRune, hlt, h2, h3, h4, if_false, and_self, if_true]
            rw [if_neg hb]
      · left
        simp [DecodeRune, hlt, h2, h3, h4]

/-! ## String literals: the pieces written by `appendString` -/

theorem piece_plain (c : Nat) (h1 : 32 ≤ c) (h2 : c < 128) (h3 : c ≠ 34) (h4 : c ≠ 92) :
    Piece [c] [c] := by
  have h5 : ¬ c < 32 := by omega
  constructor
  · intro s
    simp only [scanString, List.singleton_append]
    rw [scanStringFrom]
    simp [h3, h4, h5]
  · intro g s
    simp only [List.singleton_append]
    rw [unquoteLoop]
    simp [unquoteStep, h3, h4, h5, h2]

theorem scanString_high (p : Bytes) (hhi : ∀ c ∈ p, 128 ≤ c) (s : Bytes) :
    scanString (p ++ s) = (scanString s).map (fun r => (p ++ r.1, r.2)) := by
  induction p with
  | nil => simp
  | cons c p ih =>
    have hc : 128 ≤ c := hhi c (List.mem_cons_self _ _)
    have h3 : c ≠ 34 := by omega
    have h4 : c ≠ 92 := by omega
    have h5 : ¬ c < 32 := by omega
    have ih' := ih (fun d hd => hhi d (List.mem_cons_of_mem _ hd))
    simp only [scanString] at ih' ⊢
    simp only [List.cons_append]
    rw [scanStringFrom]
    simp only [h3, h4, h5, if_false, ih', Option.map_map]
    rfl

theorem piece_high (p : Bytes) (r : Nat) (hp : 1 ≤ p.length) (hhi : ∀ c ∈ p, 128 ≤ c)
    (henc : EncodeRune r = p) (hdec : ∀ t, DecodeRune (p ++ t) = (r, p.length)) :
    Piece p p := by
  refine ⟨scanString_high p hhi, ?_⟩
  intro g s
  cases p with
  | nil => simp at hp
  | cons c p =>
    have hc : 128 ≤ c := hhi c (List.mem_cons_self _ _)
    have h3 : c ≠ 34 := by omega
    have h4 : c ≠ 92 := by omega
    have h5 : ¬ c < 32 := by omega
    have h6 : ¬ c < 128 := by omega
    have hd := hdec s
    simp only [List.cons_append] at hd
    simp only [List.cons_append]
    rw [unquoteLoop]
    simp only [unquoteStep, h3, h4, h5, h6, if_false, or_self, hd, List.length_cons,
      Nat.add_sub_cancel, List.drop_left', henc, Option.some_bind, List.cons_append]

theorem piece_esc (e d : Nat)
    (h : (e = 34 ∧ d = 34) ∨ (e = 92 ∧ d = 92) ∨ (e = 98 ∧ d = 8) ∨ (e = 102 ∧ d = 12)
      ∨ (e = 110 ∧ d = 10) ∨ (e = 114 ∧ d = 13) ∨ (e = 116 ∧ d = 9)) :
    Piece [92, e] [d] := by
  constructor
  · intro s
    simp only [scanString, List.cons_append, List.nil_append]
    rcases h with h | h | h | h | h | h | h <;> obtain ⟨rfl, rfl⟩ := h <;>
      simp [scanStringFrom, Option.map_map, Function.comp_def]
  · intro g s
    simp only [List.cons_append, List.nil_append]
    rw [unquoteLoop]
    rcases h with h | h | h | h | h | h | h <;> obtain ⟨rfl, rfl⟩ := h <;>
      simp [unquoteStep, unquoteEscape]

theorem piece_escU (h1 h2 h3 h4 rr : Nat)
    (hget : getu4 [92, 117, h1, h2, h3, h4] = some rr) (hns : ¬ (55296 ≤ rr ∧ rr < 57344)) :
    Piece [92, 117, h1, h2, h3, h4] (EncodeRune rr) := by
  have hsome : (hexVal h1).isSome = true ∧ (hexVal h2).isSome = true
      ∧ (hexVal h3).isSome = true ∧ (hexVal h4).isSome = true := by
    simp only [getu4, and_self, if_true] at hget
    cases e1 : hexVal h1 <;> cases e2 : hexVal h2 <;> cases e3 : hexVal h3
      <;> cases e4 : hexVal h4 <;> simp [e1, e2, e3, e4] at hget ⊢
  constructor
  · intro s
    simp only [scanString, List.cons_append, List.nil_append]
    simp [scanStringFrom, hsome, Option.map_map, Function.comp_def]
  · intro g s
    have hget' : getu4 (92 :: 117 :: h1 :: h2 :: h3 :: h4 :: s) = some rr := by
      simpa [getu4] using hget
    simp only [List.cons_append, List.nil_append]
    rw [unquoteLoop]
    simp only [unquoteStep, unquoteEscape, if_true, hget']
    simp [hns]

theorem hexVal_hexDigit (n : Nat) (h : n < 16) : hexVal (hexDigit n) = some n := by
  interval_cases n <;> decide

theorem htmlSafe_iff (b : Nat) :
    htmlSafe b = true ↔ 32 ≤ b ∧ b < 128 ∧ b ≠ 34 ∧ b ≠ 38 ∧ b ≠ 60 ∧ b ≠ 62 ∧ b ≠ 92 := by
  simp [htmlSafe, and_assoc]

/-- The escape `appendString` writes for an unsafe ASCII byte is read back as
that byte. -/
theorem piece_escapeByte (b : Nat) (h : b < 128) : Piece (escapeByte b) [b] := by
  unfold escapeByte
  split_ifs with h1 h2 h3 h4 h5 h6
  · rcases h1 with rfl | rfl
    · exact piece_esc 92 92 (by simp)
    · exact piece_esc 34 34 (by simp)
  · subst h2; exact piece_esc 98 8 (by simp)
  · subst h3; exact piece_esc 102 12 (by simp)
  · subst h4; exact piece_esc 110 10 (by simp)
  · subst h5; exact piece_esc 114 13 (by simp)
  · subst h6; exact piece_esc 116 9 (by simp)
  · have hget : getu4 [92, 117, 48, 48, hexDigit (b / 16), hexDigit (b % 16)] = some b := by
      have e1 := hexVal_hexDigit (b / 16) (by omega)
      have e2 := hexVal_hexDigit (b % 16) (by omega)
      have e0 : hexVal 48 = some 0 := by decide
      simp only [getu4, and_self, if_true, e0, e1, e2, Option.some_bind, Option.some.injEq]
      omega
    have hp := piece_escU 48 48 (hexDigit (b / 16)) (hexDigit (b % 16)) b hget (by omega)
    have he : EncodeRune b = [b] := by simp [EncodeRune, h]
    rw [he] at hp
    exact hp

/-- One round of `appendString`: the piece written, what `Unmarshal` reads
back from it, and the input left. -/
theorem quote_step (b : Nat) (rest : Bytes) (f : Nat) :
    ∃ P D rest2, quoteLoop (f + 1) (b :: rest) = P ++ quoteLoop f rest2
      ∧ coerceLoop (f + 1) (b :: rest) = D ++ coerceLoop f rest2
      ∧ Piece P D ∧ 1 ≤ P.length := by
  rw [quoteLoop, coerceLoop]
  by_cases hb : b < 128
  · simp only [hb, if_true]
    by_cases hs : htmlSafe b = true
    · have hs' := (htmlSafe_iff b).mp hs
      exact ⟨[b], [b], rest, by simp [hs], rfl,
        piece_plain b hs'.1 hs'.2.1 hs'.2.2.1 hs'.2.2.2.2.2.2, by simp⟩
    · refine ⟨escapeByte b, [b], rest, by simp [hs], rfl, piece_escapeByte b hb, ?_⟩
      unfold escapeByte
      split_ifs <;> simp
  · simp only [hb, if_false]
    rcases DecodeRune_multi b rest (by omega) with hbad | ⟨p, t, hpt, hlen, h2, hhi, henc, hdec⟩
    · have hc : (DecodeRune (b :: rest)).1 = RuneError ∧ (DecodeRune (b :: rest)).2 = 1 := by
        rw [hbad]; exact ⟨rfl, rfl⟩
      simp only [hc, and_self, if_true]
      refine ⟨[92, 117, 102, 102, 102, 100], [239, 191, 189], rest, rfl, rfl, ?_, by simp⟩
      exact piece_escU 102 102 102 100 65533 (by decide) (by decide)
    · have hc : ¬ ((DecodeRune (b :: rest)).1 = RuneError ∧ (DecodeRune (b :: rest)).2 = 1) := by
        intro h
        omega
      have htake : (b :: rest).take (DecodeRune (b :: rest)).2 = p := by
        rw [← hlen, hpt, List.take_left']
        rfl
      have hdrop : rest.drop ((DecodeRune (b :: rest)).2 - 1) = t := by
        have : (b :: rest).drop (DecodeRune (b :: rest)).2 = t := by
          rw [← hlen, hpt, List.drop_left']
          rfl
        rw [← this]
        obtain ⟨k, hk⟩ : ∃ k, (DecodeRune (b :: rest)).2 = k + 1 := ⟨_, (Nat.sub_add_cancel
          (by omega : 1 ≤ (DecodeRune (b :: rest)).2)).symm⟩
        rw [hk]
        simp
      simp only [hc, if_false, htake, hdrop]
      have hdec' : ∀ t', DecodeRune (p ++ t') = ((DecodeRune (b :: rest)).1, p.length) := by
        intro t'
        rw [hdec t', hlen]
      by_cases hls : (DecodeRune (b :: rest)).1 = 8232 ∨ (DecodeRune (b :: rest)).1 = 8233
      · simp only [hls, if_true]
        refine ⟨_, p, t, rfl, rfl, ?_, by simp⟩
        have hp := piece_escU 50 48 50 (hexDigit ((DecodeRune (b :: rest)).1 % 16))
          (DecodeRune (b :: rest)).1
          (by rcases hls with h | h <;> rw [h] <;> decide)
          (by rcases hls with h | h <;> rw [h] <;> decide)
        rw [henc] at hp
        exact hp
      · simp only [hls, if_false]
        exact ⟨p, p, t, rfl, rfl,
          piece_high p _ (by omega) hhi henc hdec', by omega⟩

/-- The scanner passes over what `appendString` wrote and stops at the
closing quote. -/
theorem scanString_quoteLoop (f : Nat) (text rest : Bytes) :
    scanString (quoteLoop f text ++ 34 :: rest) = some (quoteLoop f text, rest) := by
  induction f generalizing text with
  | zero => simp [quoteLoop, scanString, scanStringFrom]
  | succ f ih =>
    cases text with
    | nil => simp [quoteLoop, scanString, scanStringFrom]
    | cons b t =>
      obtain ⟨P, D, rest2, hq, _, hpiece, _⟩ := quote_step b t f
      rw [hq, List.append_assoc, hpiece.1, ih rest2]
      rfl

/-- The conversion loop of `unquoteBytes`, given fuel for every byte, turns
what `appendString` wrote into the coerced text. -/
theorem unquoteLoop_quoteLoop (f : Nat) (text : Bytes) (g : Nat)
    (hg : (quoteLoop f text).length ≤ g) :
    unquoteLoop g (quoteLoop f text) = some (coerceLoop f text) := by
  induction f generalizing text g with
  | zero => cases g <;> simp [quoteLoop, coerceLoop, unquoteLoop]
  | succ f ih =>
    cases text with
    | nil => cases g <;> simp [quoteLoop, coerceLoop, unquoteLoop]
    | cons b t =>
      obtain ⟨P, D, rest2, hq, hc, hpiece, hP⟩ := quote_step b t f
      rw [hq] at hg ⊢
      rw [hc]
      rw [List.length_append] at hg
      obtain ⟨g', rfl⟩ : ∃ g', g = g' + 1 := ⟨g - 1, by omega⟩
      rw [hpiece.2, ih rest2 g' (by omega)]
      rfl

theorem unquote_quoteLoop (text : Bytes) :
    unquote (quoteLoop text.length text) = some (coerce text) :=
  unquoteLoop_quoteLoop text.length text _ (le_refl _)

theorem DecodeRune_size_pos (b : Nat) (rest : Bytes) : 1 ≤ (DecodeRune (b :: rest)).2 := by
  by_cases hb : b < 128
  · simp [DecodeRune, hb]
  · rcases DecodeRune_multi b rest (by omega) with h | ⟨p, t, _, hlen, h2, _⟩
    · rw [h]
    · omega

/-- On well-formed UTF-8 the coercion changes nothing. -/
theorem coerceLoop_of_valid (f : Nat) (text : Bytes) (h : validLoop f text = true) :
    coerceLoop f text = text := by
  induction f generalizing text with
  | zero =>
    cases text with
    | nil => simp [coerceLoop]
    | cons b t => simp [validLoop] at h
  | succ f ih =>
    cases text with
    | nil => simp [coerceLoop]
    | cons b t =>
      rw [validLoop] at h
      rw [coerceLoop]
      by_cases hb : b < 128
      · simp only [hb, if_true] at h ⊢
        rw [ih t h]
      · simp only [hb, if_false] at h ⊢
        by_cases h1 : (DecodeRune (b :: t)).2 = 1
        · simp [h1] at h
        · simp only [h1, if_false, and_false] at h ⊢
          rw [ih _ h]
          have hpos := DecodeRune_size_pos b t
          obtain ⟨k, hk⟩ : ∃ k, (DecodeRune (b :: t)).2 = k + 1 :=
            ⟨_, (Nat.sub_add_cancel hpos).symm⟩
          rw [hk]
          simp

theorem coerce_of_valid (text : Bytes) (h : Valid text = true) : coerce text = text :=
  coerceLoop_of_valid text.length text h

/-! ## Decimal numerals -/

theorem parseDigits_append (xs ys : Bytes) (a : Nat) :
    parseDigits (xs ++ ys) a = (parseDigits xs a).bind (fun v => parseDigits ys v) := by
  induction xs generalizing a with
  | nil => simp [parseDigits]
  | cons d ds ih =>
    simp only [List.cons_append, parseDigits]
    split_ifs
    · exact ih _
    · rfl

theorem formatBits_spec (fuel u : Nat) (acc : Bytes) (h : u < fuel) :
    ∃ ds, formatBits fuel u acc = ds ++ acc ∧ IsDecimal ds u := by
  induction fuel generalizing u acc with
  | zero => omega
  | succ f ih =>
    rw [formatBits]
    by_cases hu : u < 10
    · rw [if_pos hu]
      refine ⟨[48 + u], rfl, ?_, ?_, ?_, ?_⟩
      · intro d hd
        simp only [List.mem_singleton] at hd
        omega
      · intro h0; rw [h0]
      · intro h0; exact ⟨48 + u, [], rfl, by omega⟩
      · intro a
        simp only [parseDigits, List.length_singleton, pow_one]
        rw [if_pos (by omega)]
        congr 1
        omega
    · rw [if_neg hu]
      obtain ⟨ds, hds, hdig, _, hnz, hparse⟩ := ih (u / 10) ((48 + u % 10) :: acc) (by omega)
      refine ⟨ds ++ [48 + u % 10], by rw [hds]; simp, ?_, ?_, ?_, ?_⟩
      · intro d hd
        rcases List.mem_append.mp hd with hd | hd
        · exact hdig d hd
        · simp only [List.mem_singleton] at hd
          omega
      · intro h0; omega
      · intro _
        obtain ⟨d, t, hdt, hd⟩ := hnz (by omega)
        exact ⟨d, t ++ [48 + u % 10], by rw [hdt]; rfl, hd⟩
      · intro a
        rw [parseDigits_append, hparse a]
        simp only [Option.some_bind, parseDigits, List.length_append, List.length_singleton]
        rw [if_pos (by omega)]
        congr 1
        rw [pow_succ]
        have := Nat.div_add_mod u 10
        have e : 48 + u % 10 - 48 = u % 10 := by omega
        rw [e]
        ring_nf
        omega

theorem takeDigits_append (ds : Bytes) (hds : ∀ d ∈ ds, 48 ≤ d ∧ d ≤ 57) (c : Nat)
    (hc : ¬ (48 ≤ c ∧ c ≤ 57)) (rest : Bytes) :
    takeDigits (ds ++ c :: rest) = (ds, c :: rest) := by
  induction ds with
  | nil => simp [takeDigits, hc]
  | cons d t ih =>
    have hd := hds d (List.mem_cons_self _ _)
    have iht := ih (fun x hx => hds x (List.mem_cons_of_mem _ hx))
    rw [List.cons_append, takeDigits, if_pos hd, iht]

theorem scanFrac_end (c : Nat) (rest : Bytes) (h1 : c ≠ 46) (h2 : c ≠ 101) (h3 : c ≠ 69) :
    scanFrac (c :: rest) = some ([], c :: rest) := by
  simp [scanFrac, scanExp, h1, h2, h3]

theorem scanNumber_decimal (ds : Bytes) (u : Nat) (hd : IsDecimal ds u) (c : Nat)
    (rest : Bytes) (hc : ¬ (48 ≤ c ∧ c ≤ 57)) (h1 : c ≠ 46) (h2 : c ≠ 101) (h3 : c ≠ 69) :
    scanNumber (ds ++ c :: rest) = some (ds, c :: rest)
      ∧ scanNumber (45 :: ds ++ c :: rest) = some (45 :: ds, c :: rest) := by
  obtain ⟨hdig, hz, hnz, _⟩ := hd
  by_cases hu : u = 0
  · rw [hz hu]
    simp [scanNumber, scanFrac_end c rest h1 h2 h3]
  · obtain ⟨d, t, hdt, hd49⟩ := hnz hu
    subst hdt
    have hd57 := (hdig d (List.mem_cons_self _ _)).2
    have ht : ∀ x ∈ t, 48 ≤ x ∧ x ≤ 57 := fun x hx => hdig x (List.mem_cons_of_mem _ hx)
    have htd := takeDigits_append t ht c hc rest
    have e1 : d ≠ 45 := by omega
    have e2 : d ≠ 48 := by omega
    constructor
    · simp [scanNumber, e1, e2, hd49, hd57, htd, scanFrac_end c rest h1 h2 h3]
    · simp [scanNumber, e1, e2, hd49, hd57, htd, scanFrac_end c rest h1 h2 h3]

/-- The numeral `FormatInt` writes for an `int` starts with `-` or a digit,
is scanned as one number literal up to a following comma, and is parsed back
by `ParseInt`. -/
theorem FormatInt_spec (i : Int) (hi : isInt i) :
    (∃ c t, FormatInt i = c :: t ∧ (c = 45 ∨ (48 ≤ c ∧ c ≤ 57)))
      ∧ (∀ rest, scanNumber (FormatInt i ++ 44 :: rest) = some (FormatInt i, 44 :: rest))
      ∧ ParseInt (FormatInt i) = some i := by
  unfold FormatInt
  by_cases hneg : i < 0
  · rw [if_pos hneg]
    obtain ⟨ds, hds, hdec⟩ := formatBits_spec ((-i).toNat + 1) (-i).toNat [] (by omega)
    rw [List.append_nil] at hds
    rw [hds]
    have hne : (-i).toNat ≠ 0 := by omega
    obtain ⟨d, t, hdt, hd49⟩ := hdec.2.2.1 hne
    refine ⟨⟨45, ds, rfl, Or.inl rfl⟩, ?_, ?_⟩
    · intro rest
      exact (scanNumber_decimal ds _ hdec 44 rest (by omega) (by omega) (by omega)
        (by omega)).2
    · have hp := hdec.2.2.2 0
      have hne' : ds ≠ [] := by rw [hdt]; simp
      simp only [ParseInt, if_true, hne', if_false, hp, Nat.zero_mul, Nat.zero_add,
        Option.some_bind]
      have hr := hi.1
      rw [if_pos (by omega)]
      congr 1
      omega
  · rw [if_neg hneg]
    obtain ⟨ds, hds, hdec⟩ := formatBits_spec (i.toNat + 1) i.toNat [] (by omega)
    rw [List.append_nil] at hds
    rw [hds]
    have hdig := hdec.1
    have hds_ne : ∃ d t, ds = d :: t := by
      by_cases hu : i.toNat = 0
      · exact ⟨48, [], hdec.2.1 hu⟩
      · obtain ⟨d, t, hdt, _⟩ := hdec.2.2.1 hu
        exact ⟨d, t, hdt⟩
    obtain ⟨d, t, hdt⟩ := hds_ne
    have hd := hdig d (by rw [hdt]; exact List.mem_cons_self _ _)
    refine ⟨⟨d, t, hdt, Or.inr hd⟩, ?_, ?_⟩
    · intro rest
      exact (scanNumber_decimal ds _ hdec 44 rest (by omega) (by omega) (by omega)
        (by omega)).1
    · have hp := hdec.2.2.2 0
      rw [hdt] at hp ⊢
      have e1 : d ≠ 45 := by omega
      have e2 : d ≠ 43 := by omega
      simp only [ParseInt, e1, e2, if_false, hp, Nat.zero_mul, Nat.zero_add, Option.some_bind,
        reduceCtorEq]
      have hr := hi.2
      rw [if_pos (by omega)]
      congr 1
      omega

/-! ## C1: the record codec -/

theorem skipSpace_cons (c : Nat) (s : Bytes) (h : isSpace c = false) :
    skipSpace (c :: s) = c :: s := by
  simp [skipSpace, h]

theorem headIs_cons (b c : Nat) (s : Bytes) : headIs b (c :: s) = decide (c = b) := by
  by_cases h : c = b <;> simp [headIs, h]

/-- The decoder reads the string literal written by `appendString` as the
coerced text. -/
theorem parseValue_string (f : Nat) (text rest : Bytes) :
    parseValue (f + 1) (34 :: (quoteLoop text.length text ++ 34 :: rest))
      = some (JSON.string (coerce text), rest) := by
  rw [parseValue, skipSpace_cons 34 _ (by decide)]
  simp only [headIs_cons, List.tail_cons]
  simp [scanString_quoteLoop, unquote_quoteLoop]

/-- The decoder reads the numeral written by `FormatInt` as a number
literal. -/
theorem parseValue_number (f : Nat) (i : Int) (hi : isInt i) (rest : Bytes) :
    parseValue (f + 1) (FormatInt i ++ 44 :: rest)
      = some (JSON.number (FormatInt i), 44 :: rest) := by
  obtain ⟨⟨c, t, hct, hc⟩, hscan, _⟩ := FormatInt_spec i hi
  have hsp : isSpace c = false := by
    rcases hc with rfl | hc
    · decide
    · simp only [isSpace, Bool.or_eq_false_iff, beq_eq_false_iff_ne]
      omega
  have hskip : skipSpace (FormatInt i ++ 44 :: rest) = FormatInt i ++ 44 :: rest := by
    rw [hct, List.cons_append, skipSpace_cons c _ hsp]
  have h123 : headIs 123 (FormatInt i ++ 44 :: rest) = false := by
    rw [hct, List.cons_append, headIs_cons]
    rcases hc with rfl | hc
    · decide
    · simp; omega
  have h91 : headIs 91 (FormatInt i ++ 44 :: rest) = false := by
    rw [hct, List.cons_append, headIs_cons]
    rcases hc with rfl | hc
    · decide
    · simp; omega
  have h34 : headIs 34 (FormatInt i ++ 44 :: rest) = false := by
    rw [hct, List.cons_append, headIs_cons]
    rcases hc with rfl | hc
    · decide
    · simp; omega
  have hnum : headIs 45 (FormatInt i ++ 44 :: rest) = true
      ∨ (takeDigits (FormatInt i ++ 44 :: rest)).1 ≠ [] := by
    rw [hct, List.cons_append, headIs_cons]
    rcases hc with rfl | hc
    · left; decide
    · right
      rw [takeDigits, if_pos hc]
      simp
  rw [parseValue, hskip]
  simp only [h123, h91, h34, hnum, hscan rest, Bool.false_eq_true, if_false, if_true,
    Option.map_some']

theorem unquote_ID : unquote [73, 68] = some [73, 68] := by decide

theorem unquote_Text : unquote [84, 101, 120, 116] = some [84, 101, 120, 116] := by decide

theorem parseMembers_Text (f : Nat) (text : Bytes) :
    parseMembers (f + 2)
        (34 :: 84 :: 101 :: 120 :: 116 :: 34 :: 58 :: 34
          :: (quoteLoop text.length text ++ [34, 125]))
      = some ([([84, 101, 120, 116], JSON.string (coerce text))], []) := by
  have hkey : ∀ rest, scanString (84 :: 101 :: 120 :: 116 :: 34 :: rest)
      = some ([84, 101, 120, 116], rest) := by
    intro rest
    simp [scanString, scanStringFrom]
  rw [parseMembers, skipSpace_cons 34 _ (by decide)]
  simp only [headIs_cons, List.tail_cons, decide_True, if_true, hkey, Option.some_bind,
    unquote_Text, skipSpace_cons 58 _ (by decide : isSpace 58 = false)]
  have hv := parseValue_string f text [125]
  simp only [List.cons_append, List.nil_append] at hv
  rw [hv]
  simp [skipSpace_cons 125 _ (by decide : isSpace 125 = false), headIs_cons]

theorem parseMembers_ID (f : Nat) (t : todo) (hi : isInt t.ID) :
    parseMembers (f + 3)
        (34 :: 73 :: 68 :: 34 :: 58 :: (FormatInt t.ID ++ 44 :: 34 :: 84 :: 101 :: 120 :: 116
          :: 34 :: 58 :: 34 :: (quoteLoop t.Text.length t.Text ++ [34, 125])))
      = some ([([73, 68], JSON.number (FormatInt t.ID)),
               ([84, 101, 120, 116], JSON.string (coerce t.Text))], []) := by
  have hkey : ∀ rest, scanString (73 :: 68 :: 34 :: rest) = some ([73, 68], rest) := by
    intro rest
    simp [scanString, scanStringFrom]
  rw [parseMembers, skipSpace_cons 34 _ (by decide)]
  simp only [headIs_cons, List.tail_cons, decide_True, if_true, hkey, Option.some_bind,
    unquote_ID, skipSpace_cons 58 _ (by decide : isSpace 58 = false)]
  rw [parseValue_number (f + 1) t.ID hi]
  simp only [Option.some_bind, skipSpace_cons 44 _ (by decide : isSpace 44 = false),
    headIs_cons, List.tail_cons, decide_True, if_true]
  rw [parseMembers_Text f t.Text]
  rfl

theorem Marshal_eq (t : todo) :
    Marshal t = 123 :: 34 :: 73 :: 68 :: 34 :: 58 :: (FormatInt t.ID ++ 44 :: 34 :: 84 :: 101
      :: 120 :: 116 :: 34 :: 58 :: 34 :: (quoteLoop t.Text.length t.Text ++ [34, 125])) := by
  simp [Marshal, appendString]

theorem parseJSON_Marshal (t : todo) (hi : isInt t.ID) :
    parseJSON (Marshal t)
      = some (JSON.object [([73, 68], JSON.number (FormatInt t.ID)),
                           ([84, 101, 120, 116], JSON.string (coerce t.Text))]) := by
  obtain ⟨n, hn⟩ : ∃ n, (Marshal t).length + 1 = n + 4 := by
    refine ⟨(Marshal t).length - 3, ?_⟩
    have : 3 ≤ (Marshal t).length := by
      rw [Marshal_eq]
      simp only [List.length_cons]
      omega
    omega
  unfold parseJSON
  rw [hn, Marshal_eq, parseValue, skipSpace_cons 123 _ (by decide)]
  simp only [headIs_cons, List.tail_cons, decide_True, if_true,
    skipSpace_cons 34 _ (by decide : isSpace 34 = false)]
  rw [if_neg (by decide), parseMembers_ID n t hi]
  simp [skipSpace]

/-- Decoding the marshalled form of a record, into any struct, gives the
record's id and its text coerced to well-formed UTF-8, with no error. -/
theorem Unmarshal_Marshal (t prev : todo) (hi : isInt t.ID) :
    Unmarshal (Marshal t) prev = ({ ID := t.ID, Text := coerce t.Text }, none) := by
  unfold Unmarshal
  rw [parseJSON_Marshal t hi]
  have h1 : fieldMatch [73, 68] [73, 68] = true := by decide
  have h2 : fieldMatch [84, 101, 120, 116] [73, 68] = false := by decide
  have h3 : fieldMatch [84, 101, 120, 116] [84, 101, 120, 116] = true := by decide
  simp only [decodeMembers, h1, h2, h3, if_true, Bool.false_eq_true, if_false, storeID,
    storeText, (FormatInt_spec t.ID hi).2.2]
  simp

/-- C1 (as stated, refuted). A record whose text is the single byte 0xFF,
which is no well-formed UTF-8, does not survive the codec: `Marshal` writes
the escape of U+FFFD, and `Unmarshal` returns the three bytes of U+FFFD. -/
theorem codec_roundtrip_invalid_utf8 :
    isInt 0
      ∧ Unmarshal (Marshal { ID := 0, Text := [255] }) { ID := 0, Text := [] }
          = ({ ID := 0, Text := [239, 191, 189] }, none)
      ∧ (Unmarshal (Marshal { ID := 0, Text := [255] }) { ID := 0, Text := [] }).1
          ≠ { ID := 0, Text := [255] } := by
  decide

/-- C1 (amended). For every record whose ID is an `int` and whose Text is
well-formed UTF-8 (empty and non-ASCII text included), decoding the bytes
`Marshal` produces into a zero `todo` succeeds without error and yields the
record itself. -/
theorem codec_roundtrip (r : todo) (hi : isInt r.ID) (hv : Valid r.Text = true) :
    Unmarshal (Marshal r) { ID := 0, Text := [] } = (r, none) := by
  rw [Unmarshal_Marshal r _ hi, coerce_of_valid r.Text hv]

theorem codec_roundtrip_witness :
    isInt (-12) ∧ Valid [97, 34, 195, 169, 10, 226, 130, 172] = true
      ∧ Unmarshal (Marshal { ID := -12, Text := [97, 34, 195, 169, 10, 226, 130, 172] })
          { ID := 0, Text := [] }
        = ({ ID := -12, Text := [97, 34, 195, 169, 10, 226, 130, 172] }, none) :=
  ⟨by decide, by decide,
    codec_roundtrip { ID := -12, Text := [97, 34, 195, 169, 10, 226, 130, 172] }
      (by decide) (by decide)⟩

/-! ## C6: edit on an existing id -/

/-- C6 (as stated, refuted). With record 1 in the bucket, `edit 1` with the
text 0xFF is followed by a `get 1` that prints the text U+FFFD, not the text
given. -/
theorem edit_get_invalid_utf8 :
    (TodoGo.add Bucket.empty [97]).1.Get (itob 1) ≠ none
      ∧ TodoGo.get (TodoGo.edit (TodoGo.add Bucket.empty [97]).1 1 [255]).1 1
          = [Output.getLine 1 [239, 191, 189]]
      ∧ TodoGo.get (TodoGo.edit (TodoGo.add Bucket.empty [97]).1 1 [255]).1 1
          ≠ [Output.getLine 1 [255]] := by
  decide

/-- C6 (amended). For every bucket holding a record at `itob i` and every
new text `t` that is well-formed UTF-8, after `edit i t` a `get i` prints
exactly the record line of `(i, t)` and no error, and the entries at all
other keys and the sequence counter are unchanged. -/
theorem edit_then_get (db : Bucket) (i : Int) (t : Bytes) (hi : isInt i)
    (hex : db.Get (itob i) ≠ none) (hv : Valid t = true) :
    TodoGo.get (TodoGo.edit db i t).1 i = [Output.getLine i t]
      ∧ (∀ k : Bytes, k ≠ itob i → (TodoGo.edit db i t).1.Get k = db.Get k)
      ∧ (TodoGo.edit db i t).1.sequence = db.sequence := by
  have _ := hex
  refine ⟨?_, fun k hk => Get_Put_ne db _ _ k hk, rfl⟩
  have hget : (TodoGo.edit db i t).1.Get (itob i) = some (Marshal { ID := i, Text := t }) :=
    Get_Put_self db _ _
  unfold TodoGo.get
  rw [hget]
  simp only [Option.getD_some]
  rw [Unmarshal_Marshal { ID := i, Text := t } _ hi, coerce_of_valid t hv]
  rfl

theorem edit_then_get_witness :
    isInt 1 ∧ (TodoGo.add Bucket.empty [97]).1.Get (itob 1) ≠ none
      ∧ Valid [195, 169] = true
      ∧ (TodoGo.get (TodoGo.edit (TodoGo.add Bucket.empty [97]).1 1 [195, 169]).1 1
          = [Output.getLine 1 [195, 169]]
        ∧ (∀ k : Bytes, k ≠ itob 1 →
            (TodoGo.edit (TodoGo.add Bucket.empty [97]).1 1 [195, 169]).1.Get k
              = (TodoGo.add Bucket.empty [97]).1.Get k)
        ∧ (TodoGo.edit (TodoGo.add Bucket.empty [97]).1 1 [195, 169]).1.sequence
            = (TodoGo.add Bucket.empty [97]).1.sequence) :=
  ⟨by decide, by decide, by decide,
    edit_then_get (TodoGo.add Bucket.empty [97]).1 1 [195, 169] (by decide) (by decide)
      (by decide)⟩

/-! ## C3: list on reachable buckets -/

theorem isInt_int (u : Nat) : isInt (TodoGo.int u) := by
  unfold TodoGo.int isInt
  have := Nat.mod_lt u (by norm_num : 0 < 18446744073709551616)
  split_ifs <;> omega

theorem mem_insertRec (r x : todo) (l : List todo) (h : x ∈ insertRec r l) : x = r ∨ x ∈ l := by
  induction l with
  | nil => simpa [insertRec] using h
  | cons a as ih =>
    simp only [insertRec] at h
    split_ifs at h with h1 h2
    · simpa using h
    · rcases List.mem_cons.mp h with h | h
      · exact Or.inl h
      · exact Or.inr (List.mem_cons_of_mem _ h)
    · rcases List.mem_cons.mp h with h | h
      · exact Or.inr (by rw [h]; exact List.mem_cons_self _ _)
      · rcases ih h with h | h
        · exact Or.inl h
        · exact Or.inr (List.mem_cons_of_mem _ h)

theorem pairwise_insertRec (r : todo) (l : List todo)
    (h : l.Pairwise (fun a b => a.ID < b.ID)) :
    (insertRec r l).Pairwise (fun a b => a.ID < b.ID) := by
  induction l with
  | nil => simp [insertRec]
  | cons a as ih =>
    obtain ⟨ha, has⟩ := List.pairwise_cons.mp h
    simp only [insertRec]
    split_ifs with h1 h2
    · refine List.pairwise_cons.mpr ⟨?_, h⟩
      intro x hx
      rcases List.mem_cons.mp hx with hx | hx
      · rw [hx]; exact h1
      · exact lt_trans h1 (ha x hx)
    · refine List.pairwise_cons.mpr ⟨?_, has⟩
      intro x hx
      rw [h2]
      exact ha x hx
    · refine List.pairwise_cons.mpr ⟨?_, ih has⟩
      intro x hx
      rcases mem_insertRec r x as hx with hx | hx
      · rw [hx]; omega
      · exact ha x hx

theorem putEntries_map (r : todo) (hr : 0 ≤ r.ID ∧ isInt r.ID) (l : List todo)
    (hl : ∀ x ∈ l, 0 ≤ x.ID ∧ isInt x.ID) :
    putEntries (itob r.ID) (Marshal r) (l.map entryOf) = (insertRec r l).map entryOf := by
  induction l with
  | nil => simp [putEntries, insertRec, entryOf]
  | cons a as ih =>
    have ha := hl a (List.mem_cons_self _ _)
    have hr2 := hr.2.2
    have ha2 := ha.2.2
    have hlt := bytesLt_itob_iff r.ID a.ID hr.1 (by omega) ha.1 (by omega)
    have ih' := ih (fun x hx => hl x (List.mem_cons_of_mem _ hx))
    simp only [List.map_cons, insertRec]
    rw [show entryOf a = (itob a.ID, Marshal a) from rfl, putEntries]
    by_cases h1 : r.ID < a.ID
    · rw [if_pos (hlt.mpr h1), if_pos h1]
      rfl
    · have hnlt : ¬ bytesLt (itob r.ID) (itob a.ID) = true := fun h => h1 (hlt.mp h)
      rw [if_neg hnlt, if_neg h1]
      by_cases h2 : r.ID = a.ID
      · rw [if_pos (by rw [h2]), if_pos h2]
        rfl
      · have hne : itob r.ID ≠ itob a.ID := fun h =>
          h2 (itob_injective_of_nonneg r.ID a.ID hr.1 (by omega) ha.1 (by omega) h)
        rw [if_neg hne, if_neg h2, ih']
        rfl

theorem Inv_Put (db : Bucket) (r : todo) (hr : 0 ≤ r.ID ∧ isInt r.ID) (h : Inv db) :
    Inv (db.Put (itob r.ID) (Marshal r)) := by
  obtain ⟨recs, he, hp, hall⟩ := h
  refine ⟨insertRec r recs, ?_, pairwise_insertRec r recs hp, ?_⟩
  · simp only [Bucket.Put, he]
    exact putEntries_map r hr recs hall
  · intro x hx
    rcases mem_insertRec r x recs hx with hx | hx
    · rw [hx]; exact hr
    · exact hall x hx

theorem Inv_Delete (db : Bucket) (k : Bytes) (h : Inv db) : Inv (db.Delete k) := by
  obtain ⟨recs, he, hp, hall⟩ := h
  refine ⟨recs.filter (fun r => ¬ (entryOf r).1 = k), ?_, hp.filter _, ?_⟩
  · simp only [Bucket.Delete, he, List.filter_map]
    rfl
  · intro x hx
    exact hall x (List.mem_filter.mp hx).1

theorem Inv_of_Reachable (db : Bucket) (h : Reachable db) : Inv db := by
  induction h with
  | empty => exact ⟨[], rfl, List.Pairwise.nil, by simp⟩
  | add db text _ hid ih =>
    have hI : Inv db.NextSequence.2 := by
      obtain ⟨recs, he, hp, hall⟩ := ih
      exact ⟨recs, he, hp, hall⟩
    exact Inv_Put db.NextSequence.2 { ID := TodoGo.int db.NextSequence.1, Text := text }
      ⟨hid, isInt_int _⟩ hI
  | edit db id text _ h0 hint ih =>
    exact Inv_Put db { ID := id, Text := text } ⟨h0, hint⟩ ih
  | remove db id _ ih => exact Inv_Delete db (itob id) ih

theorem listLoop_map (recs : List todo) (hall : ∀ r ∈ recs, 0 ≤ r.ID ∧ isInt r.ID)
    (prev : todo) :
    listLoop (recs.map entryOf) prev
      = recs.map (fun r => Output.listLine r.ID (coerce r.Text)) := by
  induction recs generalizing prev with
  | nil => rfl
  | cons r rs ih =>
    have hr := (hall r (List.mem_cons_self _ _)).2
    rw [List.map_cons, show entryOf r = (itob r.ID, Marshal r) from rfl, listLoop]
    simp only [Unmarshal_Marshal r _ hr, printError, List.nil_append, List.map_cons]
    rw [ih (fun x hx => hall x (List.mem_cons_of_mem _ hx))]

/-- C3 (as stated, refuted). After `edit -1 "x"` and `add "a"` on the empty
bucket, `list` prints record 1 before record -1: the lines are not in
ascending id order. -/
theorem list_not_ascending :
    listedRecords (TodoGo.list (run Bucket.empty [Cmd.edit (-1) [120], Cmd.add [97]]).1)
        = [(1, [97]), (-1, [120])]
      ∧ ¬ ((listedRecords (TodoGo.list
            (run Bucket.empty [Cmd.edit (-1) [120], Cmd.add [97]]).1)).map
              (fun l => l.1)).Pairwise (fun a b => a < b) := by
  decide

/-- C3 (amended). For every bucket reachable from the empty bucket by `add`,
`edit` and `remove` runs in which every record id is a non-negative `int`,
`list` prints the header, one record line per entry, and the footer, with no
error line; each line shows the id and text of the record decoded from its
entry, the entry's key is `itob` of that id, and the ids are strictly
ascending.  After adding `a`, `b`, `c` to the empty bucket the lines are
`(1, a)`, `(2, b)`, `(3, c)`. -/
theorem list_reachable (db : Bucket) (h : Reachable db) :
    TodoGo.list db
        = Output.listHeader
          :: (db.entries.map
                (fun e => Output.listLine (decodeEntry e).ID (decodeEntry e).Text)
              ++ [Output.listFooter])
      ∧ (∀ e ∈ db.entries,
          (Unmarshal e.2 { ID := 0, Text := [] }).2 = none ∧ e.1 = itob (decodeEntry e).ID)
      ∧ (db.entries.map (fun e => (decodeEntry e).ID)).Pairwise (fun a b => a < b)
      ∧ listedRecords (TodoGo.list
            (run Bucket.empty [Cmd.add [97], Cmd.add [98], Cmd.add [99]]).1)
          = [(1, [97]), (2, [98]), (3, [99])] := by
  obtain ⟨recs, he, hp, hall⟩ := Inv_of_Reachable db h
  have hdec : ∀ r ∈ recs, decodeEntry (entryOf r) = { ID := r.ID, Text := coerce r.Text } := by
    intro r hr
    simp only [decodeEntry, entryOf, Unmarshal_Marshal r _ (hall r hr).2]
  refine ⟨?_, ?_, ?_, by decide⟩
  · unfold TodoGo.list
    rw [he, listLoop_map recs hall, List.map_map]
    congr 2
    apply List.map_congr_left
    intro r hr
    simp only [Function.comp_apply, hdec r hr]
  · intro e hmem
    rw [he] at hmem
    obtain ⟨r, hr, rfl⟩ := List.mem_map.mp hmem
    rw [hdec r hr]
    exact ⟨by simp only [entryOf, Unmarshal_Marshal r _ (hall r hr).2], rfl⟩
  · rw [he, List.map_map, List.pairwise_map]
    refine hp.imp_of_mem ?_
    intro a b ha hb hab
    simp only [Function.comp_apply, hdec a ha, hdec b hb]
    exact hab

theorem list_reachable_witness :
    Reachable (TodoGo.remove
        (TodoGo.edit (TodoGo.add (TodoGo.add Bucket.empty [97]).1 [98]).1 7 [120]).1 1).1
      ∧ listedRecords (TodoGo.list (TodoGo.remove
          (TodoGo.edit (TodoGo.add (TodoGo.add Bucket.empty [97]).1 [98]).1 7 [120]).1 1).1)
        = [(2, [98]), (7, [120])]
      ∧ (TodoGo.list (TodoGo.remove
          (TodoGo.edit (TodoGo.add (TodoGo.add Bucket.empty [97]).1 [98]).1 7 [120]).1 1).1
        = Output.listHeader
          :: ((TodoGo.remove
                (TodoGo.edit (TodoGo.add (TodoGo.add Bucket.empty [97]).1 [98]).1 7
                  [120]).1 1).1.entries.map
                (fun e => Output.listLine (decodeEntry e).ID (decodeEntry e).Text)
              ++ [Output.listFooter])) :=
  have hr : Reachable (TodoGo.remove
      (TodoGo.edit (TodoGo.add (TodoGo.add Bucket.empty [97]).1 [98]).1 7 [120]).1 1).1 :=
    Reachable.remove _ 1 (Reachable.edit _ 7 [120]
      (Reachable.add _ [98] (Reachable.add _ [97] Reachable.empty (by decide)) (by decide))
      (by decide) (by decide))
  ⟨hr, by decide, (list_reachable _ hr).1⟩
